import Mathlib

/-!
Barnes–Hut N-body simulation (BHCPP): shallow embedding and verified properties

The embedding follows `src/particle.cpp`, `src/node.cpp` and `src/main.cpp`.

Modelling conventions.

* A C++ `double` is an exact rational (`ℚ`): `+ - * /` are exact, rounding is
  not modelled.  Lean's `x / 0 = 0` differs from IEEE-754 (`±inf`, `NaN`); the
  one place where a zero divisor decides control flow (`theta < Theta` in
  `sumExternalForces`) is modelled with the IEEE outcome (`thetaLess`), and
  theorems about computed values carry the hypotheses that make the divisors
  non-zero wherever the value matters.
* `Eigen::Vector3d` is `Vec3`.  `Vector3d::norm()` is `sqrt (squaredNorm v)`
  where the library square root `sqrt : ℚ → ℚ` is a parameter of the embedding.
  `qsqrt` is a concrete square root, exact on squares of rationals, used to
  evaluate the program on concrete inputs.
* A `Particle*` is an index into the particle store (`List Particle`); pointer
  equality is index equality.  Nodes hold indices, so a node always reads the
  current position of a particle, as the pointer does.
* `assert` is modelled as a failure (`Err.assertion`); unbounded recursion is
  modelled with fuel (`Err.fuel` when the recursion is deeper than the fuel).
-/

namespace BHCPP

/-! ## Vectors -/

/-- Three-dimensional vector of doubles (`Eigen::Vector3d`). -/
structure Vec3 where
  x : ℚ
  y : ℚ
  z : ℚ
deriving DecidableEq, Repr

namespace Vec3

/-- The vector `0, 0, 0` (`origin` in `main`). -/
def zero : Vec3 := ⟨0, 0, 0⟩

/-- Component-wise sum. -/
def add (a b : Vec3) : Vec3 := ⟨a.x + b.x, a.y + b.y, a.z + b.z⟩

/-- Component-wise difference. -/
def sub (a b : Vec3) : Vec3 := ⟨a.x - b.x, a.y - b.y, a.z - b.z⟩

/-- Scalar multiple `c * v`. -/
def smul (c : ℚ) (v : Vec3) : Vec3 := ⟨c * v.x, c * v.y, c * v.z⟩

/-- Division of a vector by a scalar, `v / c`. -/
def sdiv (v : Vec3) (c : ℚ) : Vec3 := ⟨v.x / c, v.y / c, v.z / c⟩

/-- Eigen's `squaredNorm()`. -/
def squaredNorm (v : Vec3) : ℚ := v.x * v.x + v.y * v.y + v.z * v.z

/-- Eigen's `norm()`: the square root of `squaredNorm()`. -/
def norm (sqrt : ℚ → ℚ) (v : Vec3) : ℚ := sqrt (squaredNorm v)

/-- Sum of a list of vectors, added left to right starting from zero. -/
def sum (vs : List Vec3) : Vec3 := vs.foldl add zero

end Vec3

/-! ## A concrete square root, exact on squares -/

/-- Upward search for the integer square root: the largest `r` with `r * r ≤ n`. -/
def isqrtUp : Nat → Nat → Nat → Nat
  | 0, r, _ => r
  | fuel + 1, r, n => if (r + 1) * (r + 1) ≤ n then isqrtUp fuel (r + 1) n else r

/-- Integer square root. -/
def isqrt (n : Nat) : Nat := isqrtUp n 0 n

/-- Square root on rationals, exact on every square of a rational. -/
def qsqrt (q : ℚ) : ℚ := (isqrt q.num.natAbs : ℚ) / (isqrt q.den : ℚ)

/-! ## Particles (`particle.h`, `particle.cpp`) -/

/-- Physical body of the simulation (`class Particle`). -/
structure Particle where
  mass : ℚ
  prevPos : Vec3
  pos : Vec3
  vel : Vec3
  extForce : Vec3
deriving DecidableEq, Repr

namespace Particle

/-- `Particle::Particle(double mass, Vector3d prevPos, Vector3d vel, double dt)`. -/
def new (mass : ℚ) (prevPos vel : Vec3) (dt : ℚ) : Particle :=
  { mass := mass
    prevPos := prevPos
    vel := vel
    pos := Vec3.add prevPos (Vec3.smul dt vel)
    extForce := Vec3.zero }

/-- `Particle::setExtForce`. -/
def setExtForce (p : Particle) (force : Vec3) : Particle := { p with extForce := force }

/-- `Particle::addExtForce`. -/
def addExtForce (p : Particle) (force : Vec3) : Particle :=
  { p with extForce := Vec3.add p.extForce force }

/-- `Particle::step`: one Störmer–Verlet step. -/
def step (p : Particle) (b_updateVel : Bool) (dt : ℚ) : Particle :=
  let nextPos := Vec3.add (Vec3.sub (Vec3.smul 2 p.pos) p.prevPos)
    (Vec3.smul (dt ^ 2) (Vec3.sdiv p.extForce p.mass))
  let p1 := { p with prevPos := p.pos }
  let p2 := { p1 with pos := nextPos }
  if b_updateVel then { p2 with vel := Vec3.sdiv (Vec3.sub p2.pos p2.prevPos) dt } else p2

end Particle

/-- The particle store: `Particle** particles` of `main`. -/
abbrev Store := List Particle

/-- Dereference of the particle pointer `i`. -/
def Store.at (ps : Store) (i : Nat) : Particle :=
  ps.getD i ⟨0, Vec3.zero, Vec3.zero, Vec3.zero, Vec3.zero⟩

/-- Apply an update through the particle pointer `i`. -/
def Store.modify (ps : Store) (i : Nat) (f : Particle → Particle) : Store :=
  ps.set i (f (Store.at ps i))

/-! ## Nodes (`node.h`, `node.cpp`) -/

/-- Failure modes of the embedded program. -/
inductive Err where
  | assertion
  | fuel
deriving DecidableEq, Repr

/-- The scalar and vector attributes of a node together with the particle
pointers it owns (`numParticles_` is the length of `particles`). -/
structure NodeData where
  center : Vec3
  com : Vec3
  totalMass : ℚ
  side : ℚ
  particles : List Nat
deriving DecidableEq, Repr

/-- Node of the octree: `leaf` has `b_hasChildren_ = false`, `branch` has
`b_hasChildren_ = true` and the eight entries of `children_`. -/
inductive Node where
  | leaf (d : NodeData)
  | branch (d : NodeData) (c0 c1 c2 c3 c4 c5 c6 c7 : Node)
deriving DecidableEq, Repr

namespace Node

/-- `Node::Node(Vector3d center, double side)`. -/
def new (center : Vec3) (side : ℚ) : Node :=
  leaf { center := center, com := center, totalMass := 0, side := side, particles := [] }

/-- The attributes of a node. -/
def data : Node → NodeData
  | leaf d => d
  | branch d _ _ _ _ _ _ _ _ => d

/-- Replace the attributes of a node, keeping its children. -/
def setData : Node → NodeData → Node
  | leaf _, d => leaf d
  | branch _ c0 c1 c2 c3 c4 c5 c6 c7, d => branch d c0 c1 c2 c3 c4 c5 c6 c7

/-- `Node::hasChildren`. -/
def hasChildren : Node → Bool
  | leaf _ => false
  | branch _ _ _ _ _ _ _ _ _ => true

/-- `Node::children`, empty when the node has not been subdivided. -/
def children : Node → List Node
  | leaf _ => []
  | branch _ c0 c1 c2 c3 c4 c5 c6 c7 => [c0, c1, c2, c3, c4, c5, c6, c7]

/-- `Node::center`. -/
def center (n : Node) : Vec3 := n.data.center

/-- `Node::com`. -/
def com (n : Node) : Vec3 := n.data.com

/-- `Node::totalMass`. -/
def totalMass (n : Node) : ℚ := n.data.totalMass

/-- `Node::side`. -/
def side (n : Node) : ℚ := n.data.side

/-- `Node::particles`. -/
def particles (n : Node) : List Nat := n.data.particles

/-- `Node::numParticles`. -/
def numParticles (n : Node) : Nat := n.data.particles.length

/-- `Node::addParticle`: store the pointer in the next free slot. -/
def addParticle (n : Node) (p : Nat) : Node :=
  n.setData { n.data with particles := n.data.particles ++ [p] }

/-- The loop of `Node::updateMassAttribs`: accumulates `totalMass` and `com`
over the owned particles. -/
def massLoop (ps : Store) (parts : List Nat) (acc : ℚ × Vec3) : ℚ × Vec3 :=
  parts.foldl
    (fun a i => (a.1 + (ps.at i).mass, Vec3.add a.2 (Vec3.smul (ps.at i).mass (ps.at i).pos)))
    acc

/-- `Node::updateMassAttribs`. -/
def updateMassAttribs (ps : Store) (n : Node) : Except Err Node :=
  if 0 < n.numParticles then
    let r := massLoop ps n.particles (0, Vec3.zero)
    let com := Vec3.sdiv r.2 r.1
    .ok (n.setData { n.data with totalMass := r.1, com := com })
  else .error Err.assertion

/-- `Node::inBounds`. -/
def inBounds (n : Node) (point : Vec3) : Bool :=
  let maxX := n.center.x + n.side / 2
  let minX := n.center.x - n.side / 2
  let maxY := n.center.y + n.side / 2
  let minY := n.center.y - n.side / 2
  let maxZ := n.center.z + n.side / 2
  let minZ := n.center.z - n.side / 2
  let b_X := decide (minX ≤ point.x) && decide (point.x ≤ maxX)
  let b_Y := decide (minY ≤ point.y) && decide (point.y ≤ maxY)
  let b_Z := decide (minZ ≤ point.z) && decide (point.z ≤ maxZ)
  b_X && b_Y && b_Z

/-- The eight `childCenters` of `Node::subdivide`, in index order. -/
def childCenters (s : ℚ) : List Vec3 :=
  [⟨-s, -s, s⟩, ⟨s, -s, s⟩, ⟨-s, -s, -s⟩, ⟨s, -s, -s⟩,
   ⟨-s, s, s⟩, ⟨s, s, s⟩, ⟨-s, s, -s⟩, ⟨s, s, -s⟩]

/-- The particle loop of `Node::subdivide` seen from one child: every owned
particle of the parent, in order, is added to the child when the child's
`inBounds` holds at the particle's position.  (The children are filled
independently of each other, so the loop over the children is taken outermost.) -/
def fillChild (ps : Store) (parts : List Nat) (child : Node) : Node :=
  parts.foldl (fun c i => if c.inBounds (ps.at i).pos then c.addParticle i else c) child

/-- The last loop of `Node::subdivide` at one child: aggregate it when it owns
a particle. -/
def aggregateChild (ps : Store) (child : Node) : Except Err Node :=
  if 0 < child.numParticles then updateMassAttribs ps child else .ok child

/-- One child of `Node::subdivide`: constructed, filled and aggregated. -/
def makeChild (ps : Store) (parts : List Nat) (center : Vec3) (childSide : ℚ) :
    Except Err Node :=
  aggregateChild ps (fillChild ps parts (Node.new center childSide))

/-- `Node::subdivide`. -/
def subdivide (ps : Store) (n : Node) : Except Err Node :=
  if 1 < n.numParticles then
    let childSide := n.side / 2
    let s := childSide / 2
    let mk := fun (c : Vec3) => makeChild ps n.particles c childSide
    do
      let c0 ← mk ⟨-s, -s, s⟩
      let c1 ← mk ⟨s, -s, s⟩
      let c2 ← mk ⟨-s, -s, -s⟩
      let c3 ← mk ⟨s, -s, -s⟩
      let c4 ← mk ⟨-s, s, s⟩
      let c5 ← mk ⟨s, s, s⟩
      let c6 ← mk ⟨-s, s, -s⟩
      let c7 ← mk ⟨s, s, -s⟩
      pure (branch n.data c0 c1 c2 c3 c4 c5 c6 c7)
  else .error Err.assertion

end Node

/-! ## The driver (`main.cpp`) -/

/-- `buildTree`: subdivide recursively while a node owns more than one particle.
`fuel` bounds the recursion depth; `Err.fuel` means the recursion is deeper. -/
def buildTree (ps : Store) : Nat → Node → Except Err Node
  | fuel, n =>
    if n.numParticles ≤ 1 then .ok n
    else
      match fuel with
      | 0 => .error Err.fuel
      | fuel + 1 =>
        match n.subdivide ps with
        | .error e => .error e
        | .ok (Node.leaf d) => .ok (Node.leaf d)
        | .ok (Node.branch d c0 c1 c2 c3 c4 c5 c6 c7) => do
          let b0 ← buildTree ps fuel c0
          let b1 ← buildTree ps fuel c1
          let b2 ← buildTree ps fuel c2
          let b3 ← buildTree ps fuel c3
          let b4 ← buildTree ps fuel c4
          let b5 ← buildTree ps fuel c5
          let b6 ← buildTree ps fuel c6
          let b7 ← buildTree ps fuel c7
          pure (Node.branch d b0 b1 b2 b3 b4 b5 b6 b7)

/-- The comparison `theta < Theta` of `sumExternalForces` with
`theta = side / posVecMag` computed in IEEE-754 arithmetic: for a zero divisor
`theta` is `+inf` (`side > 0`), `NaN` (`side = 0`) or `-inf` (`side < 0`), and
only `-inf < Theta` is true. -/
def thetaLess (side posVecMag Theta : ℚ) : Bool :=
  if posVecMag = 0 then decide (side < 0) else decide (side / posVecMag < Theta)

/-- The force term of `sumExternalForces`:
`Fdenom = (-1) * G * m1 * m2 * posVec`, `Fnum = pow(pow(|posVec|, 2) + pow(epsilon, 2), 3 / 2)`
and `F = Fdenom / Fnum`.  The exponent `3 / 2` is a quotient of two `int`
literals, as in the source. -/
def forceTerm (sqrt : ℚ → ℚ) (epsilon G m1 m2 : ℚ) (posVec : Vec3) : Vec3 :=
  let Fdenom := Vec3.smul ((-1) * G * m1 * m2) posVec
  let Fnum := ((Vec3.norm sqrt posVec) ^ 2 + epsilon ^ 2) ^ (3 / 2)
  Vec3.sdiv Fdenom Fnum

/-- `sumExternalForces`: depth-first traversal adding to the force accumulator
of the particle `p`. -/
def sumExternalForces (sqrt : ℚ → ℚ) (p : Nat) (epsilon G Theta : ℚ) : Node → Store → Store
  | Node.leaf d, ps =>
    match d.particles with
    | [] => ps
    | q :: _ =>
      if q = p then ps
      else
        let posVec := Vec3.sub (ps.at p).pos (ps.at q).pos
        let F := forceTerm sqrt epsilon G (ps.at p).mass (ps.at q).mass posVec
        ps.modify p (fun a => a.addExtForce F)
  | Node.branch d c0 c1 c2 c3 c4 c5 c6 c7, ps =>
    let posVec := Vec3.sub (ps.at p).pos d.com
    let posVecMag := Vec3.norm sqrt posVec
    if thetaLess d.side posVecMag Theta then
      let F := forceTerm sqrt epsilon G (ps.at p).mass d.totalMass posVec
      ps.modify p (fun a => a.addExtForce F)
    else
      let ps := sumExternalForces sqrt p epsilon G Theta c0 ps
      let ps := sumExternalForces sqrt p epsilon G Theta c1 ps
      let ps := sumExternalForces sqrt p epsilon G Theta c2 ps
      let ps := sumExternalForces sqrt p epsilon G Theta c3 ps
      let ps := sumExternalForces sqrt p epsilon G Theta c4 ps
      let ps := sumExternalForces sqrt p epsilon G Theta c5 ps
      let ps := sumExternalForces sqrt p epsilon G Theta c6 ps
      sumExternalForces sqrt p epsilon G Theta c7 ps

/-- The loop of `getMaxSide`: the running maxima `maxX`, `maxY`, `maxZ`. -/
def maxLoop (ps : List Particle) (acc : ℚ × ℚ × ℚ) : ℚ × ℚ × ℚ :=
  ps.foldl
    (fun a p =>
      let maxX := if |p.pos.x| > a.1 then |p.pos.x| else a.1
      let maxY := if |p.pos.y| > a.2.1 then |p.pos.y| else a.2.1
      let maxZ := if |p.pos.z| > a.2.2 then |p.pos.z| else a.2.2
      (maxX, maxY, maxZ))
    acc

/-- `getMaxSide`: twice the largest absolute coordinate of any particle. -/
def getMaxSide (ps : Store) : ℚ :=
  let m := maxLoop ps (0, 0, 0)
  let maxC := (0 : ℚ)
  let maxC := if m.1 > maxC then m.1 else maxC
  let maxC := if m.2.1 > maxC then m.2.1 else maxC
  let maxC := if m.2.2 > maxC then m.2.2 else maxC
  2 * maxC

/-- The root of a frame before aggregation: centred at the origin with side
`getMaxSide`, owning every particle of the store in order. -/
def rootOf (ps : Store) : Node :=
  (List.range ps.length).foldl Node.addParticle (Node.new Vec3.zero (getMaxSide ps))

/-- The tree of a frame: the populated root, aggregated, then `buildTree`. -/
def frameTree (fuel : Nat) (ps : Store) : Except Err Node :=
  match (rootOf ps).updateMassAttribs ps with
  | .error e => .error e
  | .ok root => buildTree ps fuel root

/-- Body of the gravity loop of `main` for the particle `j`. -/
def gravityStep (sqrt : ℚ → ℚ) (epsilon G Theta dt : ℚ) (root : Node) (ps : Store) (j : Nat) :
    Store :=
  let ps := sumExternalForces sqrt j epsilon G Theta root ps
  let ps := ps.modify j (fun a => a.step false dt)
  ps.modify j (fun a => a.setExtForce Vec3.zero)

/-- Body of the frame loop of `main`, without the output of the frame. -/
def frameBody (sqrt : ℚ → ℚ) (fuel : Nat) (epsilon G Theta dt : ℚ) (ps : Store) :
    Except Err Store :=
  match frameTree fuel ps with
  | .error e => .error e
  | .ok root => .ok ((List.range ps.length).foldl (gravityStep sqrt epsilon G Theta dt root) ps)

/-! ## Derived observations -/

/-- The leaves of a tree in traversal order. -/
def Node.leaves : Node → List NodeData
  | Node.leaf d => [d]
  | Node.branch _ c0 c1 c2 c3 c4 c5 c6 c7 =>
    c0.leaves ++ c1.leaves ++ c2.leaves ++ c3.leaves ++ c4.leaves ++ c5.leaves ++ c6.leaves
      ++ c7.leaves

/-- Sum of `numParticles` over the leaves of a tree. -/
def Node.leafCount (n : Node) : Nat := (n.leaves.map (fun d => d.particles.length)).sum

/-- The particle `particles()[0]` of every non-empty leaf, in traversal order. -/
def Node.leafHeads (n : Node) : List Nat := n.leaves.filterMap (fun d => d.particles.head?)

/-- Every node of the tree has a non-negative side. -/
def Node.sidesNonneg : Node → Prop
  | Node.leaf d => 0 ≤ d.side
  | Node.branch d c0 c1 c2 c3 c4 c5 c6 c7 =>
    0 ≤ d.side ∧ c0.sidesNonneg ∧ c1.sidesNonneg ∧ c2.sidesNonneg ∧ c3.sidesNonneg ∧
      c4.sidesNonneg ∧ c5.sidesNonneg ∧ c6.sidesNonneg ∧ c7.sidesNonneg

/-- The contribution `sumExternalForces` adds to `p` for a leaf holding `q`. -/
def pairForce (sqrt : ℚ → ℚ) (epsilon G : ℚ) (ps : Store) (p q : Nat) : Vec3 :=
  forceTerm sqrt epsilon G (ps.at p).mass (ps.at q).mass (Vec3.sub (ps.at p).pos (ps.at q).pos)

/-- A particle at rest at `pos` (`prevPos = pos`, zero velocity and force). -/
def restingParticle (mass : ℚ) (pos : Vec3) : Particle := Particle.new mass pos Vec3.zero 0

/-- Sum of the masses of the particles behind the pointers `parts`. -/
def massSum (ps : Store) (parts : List Nat) : ℚ := (parts.map (fun i => (ps.at i).mass)).sum

/-- Sum of `mass * pos` of the particles behind the pointers `parts`. -/
def momentSum (ps : Store) (parts : List Nat) : Vec3 :=
  Vec3.sum (parts.map (fun i => Vec3.smul (ps.at i).mass (ps.at i).pos))

/-- The point lies in the closed cubes of at most one child at every subdivided
node of the tree: it is on no shared face of two sibling cubes. -/
def Node.offSharedFaces : Node → Vec3 → Bool
  | Node.leaf _, _ => true
  | Node.branch _ c0 c1 c2 c3 c4 c5 c6 c7, pt =>
    decide (([c0, c1, c2, c3, c4, c5, c6, c7].filter (fun c => c.inBounds pt)).length ≤ 1)
      && c0.offSharedFaces pt && c1.offSharedFaces pt && c2.offSharedFaces pt
      && c3.offSharedFaces pt && c4.offSharedFaces pt && c5.offSharedFaces pt
      && c6.offSharedFaces pt && c7.offSharedFaces pt

/-- The exact pairwise force on `p`: the single-pair contribution of every
other particle of the store, each taken once, summed independently of any tree. -/
def directSum (sqrt : ℚ → ℚ) (epsilon G : ℚ) (ps : Store) (p : Nat) : Vec3 :=
  Vec3.sum (((List.range ps.length).filter (fun q => q ≠ p)).map (pairForce sqrt epsilon G ps p))

/-- Two unit masses at rest at `(-1,0,0)` and `(1,0,0)`. -/
def twoBody : Store := [restingParticle 1 ⟨-1, 0, 0⟩, restingParticle 1 ⟨1, 0, 0⟩]

/-- Two unit masses at rest at `(3,3,3)` and `(2,2,2)`. -/
def diagonalPair : Store := [restingParticle 1 ⟨3, 3, 3⟩, restingParticle 1 ⟨2, 2, 2⟩]

/-- Two unit masses at rest at `(-1,-1,-1)` and `(1,1,1)`. -/
def antipodalPair : Store := [restingParticle 1 ⟨-1, -1, -1⟩, restingParticle 1 ⟨1, 1, 1⟩]

/-- Two unit masses at rest at the origin. -/
def originPair : Store := [restingParticle 1 ⟨0, 0, 0⟩, restingParticle 1 ⟨0, 0, 0⟩]

/-- Two unit masses at rest at `(1,0,0)`. -/
def coincidentPair : Store := [restingParticle 1 ⟨1, 0, 0⟩, restingParticle 1 ⟨1, 0, 0⟩]

/-- Three particles of masses `1`, `2`, `3` at rest at the origin. -/
def originTriple : Store :=
  [restingParticle 1 ⟨0, 0, 0⟩, restingParticle 2 ⟨0, 0, 0⟩, restingParticle 3 ⟨0, 0, 0⟩]

/-- Unit masses at `(1,1,1)`, `(3,-2,7)` and `(-1,4,-5)`: the first sits at the
centre of mass of the three, at distance `7` from each of the other two, and the
three lie in three different octants, off the coordinate planes. -/
def centredTriple : Store :=
  [restingParticle 1 ⟨1, 1, 1⟩, restingParticle 1 ⟨3, -2, 7⟩, restingParticle 1 ⟨-1, 4, -5⟩]

/-- A unit mass at `(2,0,0)` and a unit mass at the origin. -/
def axisPair : Store := [restingParticle 1 ⟨2, 0, 0⟩, restingParticle 1 ⟨0, 0, 0⟩]

/-- The attributes of the child that `Node::subdivide` creates at centre `c`
with side `s` from the parent's pointers `parts`, in closed form. -/
def childOf (ps : Store) (parts : List Nat) (c : Vec3) (s : ℚ) : NodeData :=
  let q := parts.filter (fun i => (Node.new c s).inBounds (ps.at i).pos)
  if 0 < q.length then
    let r := Node.massLoop ps q (0, Vec3.zero)
    { center := c, com := Vec3.sdiv r.2 r.1, totalMass := r.1, side := s, particles := q }
  else { center := c, com := c, totalMass := 0, side := s, particles := q }

/-- The child that `Node::subdivide` creates for `n` at centre `c`. -/
def kid (ps : Store) (n : Node) (c : Vec3) : Node :=
  Node.leaf (childOf ps n.particles c (n.side / 2))

/-- Add the forces `Fs`, left to right, to the accumulator of the particle `p`. -/
def Store.addForces (ps : Store) (p : Nat) (Fs : List Vec3) : Store :=
  ps.modify p (fun a => ⟨a.mass, a.prevPos, a.pos, a.vel, Fs.foldl Vec3.add a.extForce⟩)

/-- The leaf-level contributions to `p` of a tree: one single-pair term for
every non-empty leaf whose first particle is not `p`, in traversal order. -/
def leafContribs (sqrt : ℚ → ℚ) (epsilon G : ℚ) (ps : Store) (p : Nat) (t : Node) : List Vec3 :=
  (t.leafHeads.filter (fun q => q ≠ p)).map (pairForce sqrt epsilon G ps p)

/-- The aggregated root of a frame over a non-empty store, in closed form. -/
def frameRoot (ps : Store) : Node :=
  Node.leaf ⟨Vec3.zero,
    Vec3.sdiv (momentSum ps (List.range ps.length)) (massSum ps (List.range ps.length)),
    massSum ps (List.range ps.length), getMaxSide ps, List.range ps.length⟩

/-- The tree of a frame when the build succeeds within `fuel` (an empty leaf otherwise). -/
def builtTree (fuel : Nat) (ps : Store) : Node :=
  match frameTree fuel ps with
  | .ok t => t
  | .error _ => Node.new Vec3.zero 0

/-- The force accumulated on `p` by one traversal of `t` from the store `ps`. -/
def forceOn (sqrt : ℚ → ℚ) (epsilon G Theta : ℚ) (t : Node) (ps : Store) (p : Nat) : Vec3 :=
  ((sumExternalForces sqrt p epsilon G Theta t ps).at p).extForce

/-! ### Observations for the traversal, the frame loop and the tree -/

/-- The divisions performed by `sumExternalForces`, in execution order:
`theta` is `side / posVecMag` at a node with children (with its divisor),
`leafForce` is `Fdenom / Fnum` against the particle of a leaf and `nodeForce`
is `Fdenom / Fnum` against an accepted node (each with its divisor `Fnum`). -/
inductive Event where
  | theta (posVecMag : ℚ)
  | leafForce (Fnum : ℚ)
  | nodeForce (Fnum : ℚ)
deriving DecidableEq, Repr

/-- The divisor `Fnum` of the force term of `sumExternalForces`. -/
def forceDivisor (sqrt : ℚ → ℚ) (epsilon : ℚ) (posVec : Vec3) : ℚ :=
  ((Vec3.norm sqrt posVec) ^ 2 + epsilon ^ 2) ^ (3 / 2)

/-- `sumExternalForces` with a record of the divisions it performs: the store is
updated exactly as by `sumExternalForces`, and every division appends one event. -/
def sumExternalForcesTrace (sqrt : ℚ → ℚ) (p : Nat) (epsilon G Theta : ℚ) :
    Node → Store × List Event → Store × List Event
  | Node.leaf d, s =>
    match d.particles with
    | [] => s
    | q :: _ =>
      if q = p then s
      else
        let posVec := Vec3.sub (s.1.at p).pos (s.1.at q).pos
        let F := forceTerm sqrt epsilon G (s.1.at p).mass (s.1.at q).mass posVec
        (s.1.modify p (fun a => a.addExtForce F),
          s.2 ++ [Event.leafForce (forceDivisor sqrt epsilon posVec)])
  | Node.branch d c0 c1 c2 c3 c4 c5 c6 c7, s =>
    let posVec := Vec3.sub (s.1.at p).pos d.com
    let posVecMag := Vec3.norm sqrt posVec
    if thetaLess d.side posVecMag Theta then
      let F := forceTerm sqrt epsilon G (s.1.at p).mass d.totalMass posVec
      (s.1.modify p (fun a => a.addExtForce F),
        s.2 ++ [Event.theta posVecMag, Event.nodeForce (forceDivisor sqrt epsilon posVec)])
    else
      let s := (s.1, s.2 ++ [Event.theta posVecMag])
      let s := sumExternalForcesTrace sqrt p epsilon G Theta c0 s
      let s := sumExternalForcesTrace sqrt p epsilon G Theta c1 s
      let s := sumExternalForcesTrace sqrt p epsilon G Theta c2 s
      let s := sumExternalForcesTrace sqrt p epsilon G Theta c3 s
      let s := sumExternalForcesTrace sqrt p epsilon G Theta c4 s
      let s := sumExternalForcesTrace sqrt p epsilon G Theta c5 s
      let s := sumExternalForcesTrace sqrt p epsilon G Theta c6 s
      sumExternalForcesTrace sqrt p epsilon G Theta c7 s

/-- The divisions of one traversal for `p` started on the store `ps`. -/
def divisions (sqrt : ℚ → ℚ) (p : Nat) (epsilon G Theta : ℚ) (t : Node) (ps : Store) :
    List Event :=
  (sumExternalForcesTrace sqrt p epsilon G Theta t (ps, [])).2

/-- The event is a leaf-level pairwise force evaluation. -/
def Event.isLeafForce : Event → Bool
  | Event.leafForce _ => true
  | _ => false

/-- The event is a point-mass approximation of an accepted node. -/
def Event.isNodeForce : Event → Bool
  | Event.nodeForce _ => true
  | _ => false

/-- Number of leaf-level pairwise force evaluations in a record. -/
def leafForceCount (tr : List Event) : Nat := (tr.filter Event.isLeafForce).length

/-- The divisions of a traversal for `p` computed from the tree and the positions
of the store alone, without threading the store through the traversal. -/
def eventsOf (sqrt : ℚ → ℚ) (p : Nat) (epsilon Theta : ℚ) (ps : Store) : Node → List Event
  | Node.leaf d =>
    match d.particles with
    | [] => []
    | q :: _ =>
      if q = p then []
      else [Event.leafForce (forceDivisor sqrt epsilon (Vec3.sub (ps.at p).pos (ps.at q).pos))]
  | Node.branch d c0 c1 c2 c3 c4 c5 c6 c7 =>
    if thetaLess d.side (Vec3.norm sqrt (Vec3.sub (ps.at p).pos d.com)) Theta then
      [Event.theta (Vec3.norm sqrt (Vec3.sub (ps.at p).pos d.com)),
        Event.nodeForce (forceDivisor sqrt epsilon (Vec3.sub (ps.at p).pos d.com))]
    else
      Event.theta (Vec3.norm sqrt (Vec3.sub (ps.at p).pos d.com))
        :: (eventsOf sqrt p epsilon Theta ps c0 ++ eventsOf sqrt p epsilon Theta ps c1
          ++ eventsOf sqrt p epsilon Theta ps c2 ++ eventsOf sqrt p epsilon Theta ps c3
          ++ eventsOf sqrt p epsilon Theta ps c4 ++ eventsOf sqrt p epsilon Theta ps c5
          ++ eventsOf sqrt p epsilon Theta ps c6 ++ eventsOf sqrt p epsilon Theta ps c7)

/-- The store when the gravity loop of `main` reaches the particle `j`: the
particles before `j` have been evaluated, stepped and reset. -/
def loopPrefix (sqrt : ℚ → ℚ) (epsilon G Theta dt : ℚ) (root : Node) (ps : Store) (j : Nat) :
    Store :=
  (List.range j).foldl (gravityStep sqrt epsilon G Theta dt root) ps

/-- The two-phase frame of the specification, for comparison with `frameBody`:
the force of every particle is summed against the tree of the frame first, and
only then is every particle integrated and its accumulator reset. -/
def twoPhaseFrameBody (sqrt : ℚ → ℚ) (fuel : Nat) (epsilon G Theta dt : ℚ) (ps : Store) :
    Except Err Store :=
  match frameTree fuel ps with
  | .error e => .error e
  | .ok root =>
    let evaluated := (List.range ps.length).foldl
      (fun s j => sumExternalForces sqrt j epsilon G Theta root s) ps
    .ok ((List.range ps.length).foldl
      (fun s j => (s.modify j (fun a => a.step false dt)).modify j
        (fun a => a.setExtForce Vec3.zero)) evaluated)

/-- The point lies strictly inside the cube of the node. -/
def Node.inInterior (n : Node) (point : Vec3) : Bool :=
  decide (n.center.x - n.side / 2 < point.x) && decide (point.x < n.center.x + n.side / 2)
    && decide (n.center.y - n.side / 2 < point.y) && decide (point.y < n.center.y + n.side / 2)
    && decide (n.center.z - n.side / 2 < point.z) && decide (point.z < n.center.z + n.side / 2)

/-- The node's `totalMass` and `com` are the aggregates of its owned particles. -/
def aggregated (ps : Store) (d : NodeData) : Prop :=
  d.totalMass = massSum ps d.particles
    ∧ d.com = Vec3.sdiv (momentSum ps d.particles) (massSum ps d.particles)

/-- Every leaf owns at most one particle, and every node with children owns at
least two particles and carries their aggregates. -/
def Node.wellBuilt (ps : Store) : Node → Prop
  | Node.leaf d => d.particles.length ≤ 1
  | Node.branch d c0 c1 c2 c3 c4 c5 c6 c7 =>
    2 ≤ d.particles.length ∧ aggregated ps d
      ∧ c0.wellBuilt ps ∧ c1.wellBuilt ps ∧ c2.wellBuilt ps ∧ c3.wellBuilt ps
      ∧ c4.wellBuilt ps ∧ c5.wellBuilt ps ∧ c6.wellBuilt ps ∧ c7.wellBuilt ps

/-- Every particle owned by a node of the tree passes the inclusive `inBounds`
test of that node. -/
def Node.ownedInBounds (ps : Store) : Node → Prop
  | Node.leaf d => ∀ i ∈ d.particles, (Node.leaf d).inBounds (ps.at i).pos = true
  | Node.branch d c0 c1 c2 c3 c4 c5 c6 c7 =>
    (∀ i ∈ d.particles, (Node.leaf d).inBounds (ps.at i).pos = true)
      ∧ c0.ownedInBounds ps ∧ c1.ownedInBounds ps ∧ c2.ownedInBounds ps ∧ c3.ownedInBounds ps
      ∧ c4.ownedInBounds ps ∧ c5.ownedInBounds ps ∧ c6.ownedInBounds ps ∧ c7.ownedInBounds ps

/-- Every node of the tree, the node itself first. -/
def Node.nodes : Node → List Node
  | Node.leaf d => [Node.leaf d]
  | Node.branch d c0 c1 c2 c3 c4 c5 c6 c7 =>
    Node.branch d c0 c1 c2 c3 c4 c5 c6 c7
      :: (c0.nodes ++ c1.nodes ++ c2.nodes ++ c3.nodes ++ c4.nodes ++ c5.nodes ++ c6.nodes
        ++ c7.nodes)

/-- A unit mass at `(1/2,1/2,1/2)` and a unit mass at `(-1,-1,-1)`. -/
def innerPair : Store := [restingParticle 1 ⟨1 / 2, 1 / 2, 1 / 2⟩, restingParticle 1 ⟨-1, -1, -1⟩]

/-- The child cube `[0,3]^3` of the root of `diagonalPair`, owning both particles. -/
def offCentreNode : Node :=
  Node.leaf ⟨⟨3 / 2, 3 / 2, 3 / 2⟩, ⟨5 / 2, 5 / 2, 5 / 2⟩, 2, 3, [0, 1]⟩

deriving instance DecidableEq for Except

end BHCPP

/-! ## Theorems -/

namespace BHCPP

/-! ### Vectors and the square root -/

theorem isqrtUp_sq (m : Nat) : ∀ (fuel r : Nat), r ≤ m → m - r ≤ fuel →
    isqrtUp fuel r (m * m) = m := by
  intro fuel
  induction fuel with
  | zero =>
    intro r h1 h2
    simp only [isqrtUp]
    omega
  | succ f ih =>
    intro r h1 h2
    simp only [isqrtUp]
    by_cases hr : r = m
    · subst hr
      have : ¬ (r + 1) * (r + 1) ≤ r * r := by nlinarith
      simp [this]
    · have hlt : r + 1 ≤ m := by omega
      have : (r + 1) * (r + 1) ≤ m * m := Nat.mul_le_mul hlt hlt
      simp only [this, if_true]
      exact ih (r + 1) hlt (by omega)

theorem isqrt_sq (m : Nat) : isqrt (m * m) = m := by
  unfold isqrt
  apply isqrtUp_sq m (m * m) 0 (Nat.zero_le _)
  rcases Nat.eq_zero_or_pos m with h | h
  · subst h; simp
  · have : m * 1 ≤ m * m := Nat.mul_le_mul_left m h
    omega

theorem qsqrt_mul_self (x : ℚ) : qsqrt (x * x) = |x| := by
  unfold qsqrt
  rw [Rat.mul_self_num, Rat.mul_self_den, Int.natAbs_mul, isqrt_sq, isqrt_sq]
  rw [Rat.abs_def]
  rw [Rat.divInt_eq_div]
  simp [Nat.cast_natAbs, Int.cast_abs]

theorem qsqrt_nonneg (x : ℚ) : 0 ≤ qsqrt x := by
  unfold qsqrt
  positivity

/-- The force term divides by the first power of the softened squared
distance: the exponent `3 / 2` of the source is the integer `1`. -/
theorem forceTerm_eq (sqrt : ℚ → ℚ) (epsilon G m1 m2 : ℚ) (r : Vec3) :
    forceTerm sqrt epsilon G m1 m2 r
      = Vec3.sdiv (Vec3.smul (-1 * G * m1 * m2) r) ((Vec3.norm sqrt r) ^ 2 + epsilon ^ 2) := by
  simp [forceTerm]

/-! ### Aggregation -/

theorem massLoop_fst (ps : Store) (parts : List Nat) (acc : ℚ × Vec3) :
    (Node.massLoop ps parts acc).1 = acc.1 + massSum ps parts := by
  induction parts generalizing acc with
  | nil => simp [Node.massLoop, massSum]
  | cons i rest ih =>
    have h := ih (acc.1 + (ps.at i).mass,
      Vec3.add acc.2 (Vec3.smul (ps.at i).mass (ps.at i).pos))
    simp only [Node.massLoop, List.foldl_cons, massSum, List.map_cons, List.sum_cons] at h ⊢
    rw [h]
    ring

theorem massLoop_snd (ps : Store) (parts : List Nat) (acc : ℚ × Vec3) :
    (Node.massLoop ps parts acc).2
      = (parts.map (fun i => Vec3.smul (ps.at i).mass (ps.at i).pos)).foldl Vec3.add acc.2 := by
  induction parts generalizing acc with
  | nil => simp [Node.massLoop]
  | cons i rest ih =>
    have h := ih (acc.1 + (ps.at i).mass,
      Vec3.add acc.2 (Vec3.smul (ps.at i).mass (ps.at i).pos))
    simp only [Node.massLoop, List.foldl_cons, List.map_cons] at h ⊢
    rw [h]

theorem setData_data (n : Node) (d : NodeData) : (n.setData d).data = d := by
  cases n <;> rfl

theorem updateMassAttribs_ok (ps : Store) (n : Node) (h : 0 < n.numParticles) :
    n.updateMassAttribs ps = .ok (n.setData { n.data with
      totalMass := massSum ps n.particles
      com := Vec3.sdiv (momentSum ps n.particles) (massSum ps n.particles) }) := by
  have h1 := massLoop_fst ps n.particles (0, Vec3.zero)
  have h2 := massLoop_snd ps n.particles (0, Vec3.zero)
  simp only [zero_add] at h1
  simp only [Node.updateMassAttribs, h, if_true, h1, h2, momentSum, Vec3.sum]

/-! ### The root of a frame -/

theorem foldl_addParticle_data (l : List Nat) (n : Node) :
    (l.foldl Node.addParticle n).data = { n.data with particles := n.data.particles ++ l } := by
  induction l generalizing n with
  | nil => simp
  | cons a rest ih =>
    rw [List.foldl_cons, ih]
    simp [Node.addParticle, setData_data]

theorem foldl_addParticle_leaf (l : List Nat) (d : NodeData) :
    l.foldl Node.addParticle (Node.leaf d) = Node.leaf { d with particles := d.particles ++ l } := by
  induction l generalizing d with
  | nil => simp
  | cons a rest ih =>
    rw [List.foldl_cons]
    simp only [Node.addParticle, Node.setData, Node.data]
    rw [ih]
    simp

theorem rootOf_eq (ps : Store) :
    rootOf ps
      = Node.leaf ⟨Vec3.zero, Vec3.zero, 0, getMaxSide ps, List.range ps.length⟩ := by
  simp [rootOf, Node.new, foldl_addParticle_leaf]

theorem map_at_range (ps : Store) : (List.range ps.length).map (fun i => ps.at i) = ps := by
  apply List.ext_getElem
  · simp
  · intro i h1 h2
    simp [Store.at, List.getD_eq_getElem?_getD, List.getElem?_eq_getElem h2]

theorem massSum_range (ps : Store) :
    massSum ps (List.range ps.length) = (ps.map Particle.mass).sum := by
  have h := congrArg (fun l => (l.map Particle.mass).sum) (map_at_range ps)
  simpa [massSum, List.map_map, Function.comp_def] using h

/-! ### Subdivision -/

theorem inBounds_leaf (d : NodeData) (pt : Vec3) :
    (Node.leaf d).inBounds pt = (Node.new d.center d.side).inBounds pt := by
  simp [Node.inBounds, Node.center, Node.side, Node.data, Node.new]

theorem fillChild_cons (ps : Store) (i : Nat) (rest : List Nat) (c : Node) :
    Node.fillChild ps (i :: rest) c
      = Node.fillChild ps rest (if c.inBounds (ps.at i).pos then c.addParticle i else c) := rfl

theorem addParticle_leaf (d : NodeData) (i : Nat) :
    (Node.leaf d).addParticle i
      = Node.leaf ⟨d.center, d.com, d.totalMass, d.side, d.particles ++ [i]⟩ := rfl

theorem fillChild_leaf (ps : Store) (parts : List Nat) (d : NodeData) :
    Node.fillChild ps parts (Node.leaf d)
      = Node.leaf ⟨d.center, d.com, d.totalMass, d.side, d.particles
          ++ parts.filter (fun i => (Node.new d.center d.side).inBounds (ps.at i).pos)⟩ := by
  induction parts generalizing d with
  | nil => simp [Node.fillChild]
  | cons i rest ih =>
    rw [fillChild_cons, inBounds_leaf]
    by_cases hb : (Node.new d.center d.side).inBounds (ps.at i).pos = true
    · rw [if_pos hb, addParticle_leaf, ih]
      simp [List.filter_cons, hb]
    · rw [if_neg hb, ih]
      simp [List.filter_cons, hb]

theorem makeChild_eq (ps : Store) (parts : List Nat) (c : Vec3) (s : ℚ) :
    Node.makeChild ps parts c s = .ok (Node.leaf (childOf ps parts c s)) := by
  simp only [Node.makeChild, Node.new, fillChild_leaf, List.nil_append, Node.aggregateChild,
    Node.numParticles, Node.data, childOf]
  split
  · rename_i h
    simp [Node.updateMassAttribs, Node.numParticles, Node.data, Node.particles, Node.setData, h]
  · rfl

theorem subdivide_eq (ps : Store) (n : Node) (h : 1 < n.numParticles) :
    n.subdivide ps = .ok (Node.branch n.data
      (kid ps n ⟨-(n.side / 2 / 2), -(n.side / 2 / 2), n.side / 2 / 2⟩)
      (kid ps n ⟨n.side / 2 / 2, -(n.side / 2 / 2), n.side / 2 / 2⟩)
      (kid ps n ⟨-(n.side / 2 / 2), -(n.side / 2 / 2), -(n.side / 2 / 2)⟩)
      (kid ps n ⟨n.side / 2 / 2, -(n.side / 2 / 2), -(n.side / 2 / 2)⟩)
      (kid ps n ⟨-(n.side / 2 / 2), n.side / 2 / 2, n.side / 2 / 2⟩)
      (kid ps n ⟨n.side / 2 / 2, n.side / 2 / 2, n.side / 2 / 2⟩)
      (kid ps n ⟨-(n.side / 2 / 2), n.side / 2 / 2, -(n.side / 2 / 2)⟩)
      (kid ps n ⟨n.side / 2 / 2, n.side / 2 / 2, -(n.side / 2 / 2)⟩)) := by
  simp only [Node.subdivide, h, if_true, makeChild_eq]
  rfl

theorem childOf_center (ps : Store) (parts : List Nat) (c : Vec3) (s : ℚ) :
    (childOf ps parts c s).center = c := by
  simp only [childOf]
  split <;> rfl

theorem childOf_side (ps : Store) (parts : List Nat) (c : Vec3) (s : ℚ) :
    (childOf ps parts c s).side = s := by
  simp only [childOf]
  split <;> rfl

theorem childOf_particles (ps : Store) (parts : List Nat) (c : Vec3) (s : ℚ) :
    (childOf ps parts c s).particles
      = parts.filter (fun i => (Node.new c s).inBounds (ps.at i).pos) := by
  simp only [childOf]
  split <;> rfl

theorem subdivide_data (ps : Store) (n t : Node) (h : n.subdivide ps = .ok t) :
    t.data = n.data := by
  by_cases h1 : 1 < n.numParticles
  · rw [subdivide_eq ps n h1] at h
    injection h with h
    rw [← h]
    rfl
  · simp [Node.subdivide, h1] at h

/-! ### Building the tree -/

theorem except_bind_ok {α β : Type} (a : α) (f : α → Except Err β) :
    (Except.ok a >>= f) = f a := rfl

theorem except_bind_error {α β : Type} (e : Err) (f : α → Except Err β) :
    ((Except.error e : Except Err α) >>= f) = Except.error e := rfl

theorem buildTree_small (ps : Store) (fuel : Nat) (n : Node) (h : n.numParticles ≤ 1) :
    buildTree ps fuel n = .ok n := by
  unfold buildTree
  simp [h]

theorem buildTree_zero (ps : Store) (n : Node) (h : 1 < n.numParticles) :
    buildTree ps 0 n = .error Err.fuel := by
  unfold buildTree
  simp [Nat.not_le.mpr h]

theorem bind_eq_ok {α β : Type} {x : Except Err α} {f : α → Except Err β} {b : β}
    (h : (x >>= f) = .ok b) : ∃ a, x = .ok a ∧ f a = .ok b := by
  cases x with
  | error e => cases h
  | ok a => exact ⟨a, rfl, h⟩

theorem buildTree_succ (ps : Store) (fuel : Nat) (n : Node) (h : 1 < n.numParticles) :
    buildTree ps (fuel + 1) n = (do
      let b0 ← buildTree ps fuel (kid ps n ⟨-(n.side / 2 / 2), -(n.side / 2 / 2), n.side / 2 / 2⟩)
      let b1 ← buildTree ps fuel (kid ps n ⟨n.side / 2 / 2, -(n.side / 2 / 2), n.side / 2 / 2⟩)
      let b2 ← buildTree ps fuel
        (kid ps n ⟨-(n.side / 2 / 2), -(n.side / 2 / 2), -(n.side / 2 / 2)⟩)
      let b3 ← buildTree ps fuel (kid ps n ⟨n.side / 2 / 2, -(n.side / 2 / 2), -(n.side / 2 / 2)⟩)
      let b4 ← buildTree ps fuel (kid ps n ⟨-(n.side / 2 / 2), n.side / 2 / 2, n.side / 2 / 2⟩)
      let b5 ← buildTree ps fuel (kid ps n ⟨n.side / 2 / 2, n.side / 2 / 2, n.side / 2 / 2⟩)
      let b6 ← buildTree ps fuel (kid ps n ⟨-(n.side / 2 / 2), n.side / 2 / 2, -(n.side / 2 / 2)⟩)
      let b7 ← buildTree ps fuel (kid ps n ⟨n.side / 2 / 2, n.side / 2 / 2, -(n.side / 2 / 2)⟩)
      pure (Node.branch n.data b0 b1 b2 b3 b4 b5 b6 b7)) := by
  rw [buildTree]
  simp only [Nat.not_le.mpr h, if_false, subdivide_eq ps n h]

/-- Induction along a successful run of `buildTree`. -/
theorem buildTree_induct (ps : Store) (P : Node → Node → Prop)
    (hsmall : ∀ n : Node, n.numParticles ≤ 1 → P n n)
    (hbranch : ∀ (n b0 b1 b2 b3 b4 b5 b6 b7 : Node), 1 < n.numParticles →
      P (kid ps n ⟨-(n.side / 2 / 2), -(n.side / 2 / 2), n.side / 2 / 2⟩) b0 →
      P (kid ps n ⟨n.side / 2 / 2, -(n.side / 2 / 2), n.side / 2 / 2⟩) b1 →
      P (kid ps n ⟨-(n.side / 2 / 2), -(n.side / 2 / 2), -(n.side / 2 / 2)⟩) b2 →
      P (kid ps n ⟨n.side / 2 / 2, -(n.side / 2 / 2), -(n.side / 2 / 2)⟩) b3 →
      P (kid ps n ⟨-(n.side / 2 / 2), n.side / 2 / 2, n.side / 2 / 2⟩) b4 →
      P (kid ps n ⟨n.side / 2 / 2, n.side / 2 / 2, n.side / 2 / 2⟩) b5 →
      P (kid ps n ⟨-(n.side / 2 / 2), n.side / 2 / 2, -(n.side / 2 / 2)⟩) b6 →
      P (kid ps n ⟨n.side / 2 / 2, n.side / 2 / 2, -(n.side / 2 / 2)⟩) b7 →
      P n (Node.branch n.data b0 b1 b2 b3 b4 b5 b6 b7)) :
    ∀ (fuel : Nat) (n t : Node), buildTree ps fuel n = .ok t → P n t := by
  intro fuel
  induction fuel with
  | zero =>
    intro n t h
    by_cases h1 : n.numParticles ≤ 1
    · rw [buildTree_small ps 0 n h1] at h
      injection h with h
      subst h
      exact hsmall n h1
    · rw [buildTree_zero ps n (Nat.not_le.mp h1)] at h
      cases h
  | succ f ih =>
    intro n t h
    by_cases h1 : n.numParticles ≤ 1
    · rw [buildTree_small ps (f + 1) n h1] at h
      injection h with h
      subst h
      exact hsmall n h1
    · have h2 : 1 < n.numParticles := Nat.not_le.mp h1
      rw [buildTree_succ ps f n h2] at h
      obtain ⟨b0, e0, h⟩ := bind_eq_ok h
      obtain ⟨b1, e1, h⟩ := bind_eq_ok h
      obtain ⟨b2, e2, h⟩ := bind_eq_ok h
      obtain ⟨b3, e3, h⟩ := bind_eq_ok h
      obtain ⟨b4, e4, h⟩ := bind_eq_ok h
      obtain ⟨b5, e5, h⟩ := bind_eq_ok h
      obtain ⟨b6, e6, h⟩ := bind_eq_ok h
      obtain ⟨b7, e7, h⟩ := bind_eq_ok h
      injection h with h
      subst h
      exact hbranch n b0 b1 b2 b3 b4 b5 b6 b7 h2 (ih _ _ e0) (ih _ _ e1) (ih _ _ e2)
        (ih _ _ e3) (ih _ _ e4) (ih _ _ e5) (ih _ _ e6) (ih _ _ e7)

theorem buildTree_data (ps : Store) (fuel : Nat) (n t : Node)
    (h : buildTree ps fuel n = .ok t) : t.data = n.data :=
  buildTree_induct ps (fun n t => t.data = n.data) (fun _ _ => rfl)
    (fun _ _ _ _ _ _ _ _ _ _ _ _ _ _ _ _ _ _ => rfl) fuel n t h

/-! ### C1: the exponent of the softened denominator -/

/-- C1 (evaluation at the failing input): for a unit mass at `(2,0,0)` and a leaf
holding a unit mass at the origin, with `G = 1` and `epsilon = 0`, the
contribution that `sumExternalForces` adds is `(-1/2, 0, 0)`, the numerator
divided by the first power `4` of the softened squared distance, whereas the
numerator divided by its power 3/2 (the number `8`, whose square is `4 ^ 3`) is
`(-1/4, 0, 0)`. -/
theorem C1_leaf_force_divides_by_first_power :
    ((sumExternalForces qsqrt 0 0 1 0 (Node.leaf ⟨Vec3.zero, Vec3.zero, 1, 0, [1]⟩)
        axisPair).at 0).extForce = ⟨-1 / 2, 0, 0⟩
      ∧ (Vec3.squaredNorm (Vec3.sub (axisPair.at 0).pos (axisPair.at 1).pos) + 0 ^ 2 = 4
        ∧ (8 : ℚ) * 8 = 4 ^ 3)
      ∧ Vec3.sdiv (Vec3.smul (-1 * 1 * (axisPair.at 0).mass * (axisPair.at 1).mass)
          (Vec3.sub (axisPair.at 0).pos (axisPair.at 1).pos)) 8 = ⟨-1 / 4, 0, 0⟩ := by
  decide!

/-! ### C2: mass aggregation -/

/-- C2: for a node owning at least one particle with non-zero mass sum,
`updateMassAttribs` succeeds and sets `totalMass` to the sum of the owned masses
and `com` to the mass-weighted position sum divided by that mass sum; for a
non-empty store the aggregated root of the frame has `totalMass` equal to the
sum of all particle masses, and `subdivide` (which succeeds as soon as there are
two particles) and `buildTree` return a root with the same `totalMass`. -/
theorem C2_mass_aggregation (ps : Store) (n : Node) (hn : 0 < n.numParticles)
    (_hm : massSum ps n.particles ≠ 0) :
    (∃ n1, n.updateMassAttribs ps = .ok n1
        ∧ n1.totalMass = massSum ps n.particles
        ∧ n1.com = Vec3.sdiv (momentSum ps n.particles) (massSum ps n.particles))
      ∧ (ps ≠ [] → ∃ root, (rootOf ps).updateMassAttribs ps = .ok root
        ∧ root.totalMass = (ps.map Particle.mass).sum
        ∧ (1 < ps.length → ∃ t, root.subdivide ps = .ok t
            ∧ t.totalMass = (ps.map Particle.mass).sum)
        ∧ (∀ fuel t, buildTree ps fuel root = .ok t
            → t.totalMass = (ps.map Particle.mass).sum)) := by
  constructor
  · refine ⟨_, updateMassAttribs_ok ps n hn, ?_, ?_⟩ <;>
      simp [Node.totalMass, Node.com, setData_data]
  · intro hps
    have hlen : 0 < ps.length := List.length_pos.mpr hps
    have hroot : 0 < (rootOf ps).numParticles := by
      simp [rootOf_eq, Node.numParticles, Node.data, hlen]
    have hparts : (rootOf ps).particles = List.range ps.length := by
      simp [rootOf_eq, Node.particles, Node.data]
    refine ⟨_, updateMassAttribs_ok ps (rootOf ps) hroot, ?_, ?_, ?_⟩
    · simp [Node.totalMass, setData_data, hparts, massSum_range]
    · intro h2
      have hnum : 1 < ((rootOf ps).setData { (rootOf ps).data with
          totalMass := massSum ps (rootOf ps).particles
          com := Vec3.sdiv (momentSum ps (rootOf ps).particles)
            (massSum ps (rootOf ps).particles) }).numParticles := by
        simp [rootOf_eq, Node.numParticles, Node.data, Node.setData, h2]
      refine ⟨_, subdivide_eq ps _ hnum, ?_⟩
      show (Node.setData _ _).data.totalMass = _
      rw [setData_data]
      simp [hparts, massSum_range]
    · intro fuel t ht
      have hd := buildTree_data ps fuel _ t ht
      simp [Node.totalMass, hd, setData_data, hparts, massSum_range]

/-- C2 (witness): the two-body store and its populated root. -/
theorem C2_mass_aggregation_witness :
    0 < (rootOf twoBody).numParticles ∧ massSum twoBody (rootOf twoBody).particles ≠ 0
      ∧ ((∃ n1, (rootOf twoBody).updateMassAttribs twoBody = .ok n1
          ∧ n1.totalMass = massSum twoBody (rootOf twoBody).particles
          ∧ n1.com = Vec3.sdiv (momentSum twoBody (rootOf twoBody).particles)
              (massSum twoBody (rootOf twoBody).particles))
        ∧ (twoBody ≠ [] → ∃ root, (rootOf twoBody).updateMassAttribs twoBody = .ok root
          ∧ root.totalMass = (twoBody.map Particle.mass).sum
          ∧ (1 < twoBody.length → ∃ t, root.subdivide twoBody = .ok t
              ∧ t.totalMass = (twoBody.map Particle.mass).sum)
          ∧ (∀ fuel t, buildTree twoBody fuel root = .ok t
              → t.totalMass = (twoBody.map Particle.mass).sum))) :=
  ⟨by decide!, by decide!, C2_mass_aggregation twoBody (rootOf twoBody) (by decide!) (by decide!)⟩

/-! ### C3: the integrator -/

/-- C3: for a particle of non-zero mass, `Particle::step` sets every coordinate of
`pos` to `2 * pos - prevPos + (extForce / mass) * dt ^ 2`, sets `prevPos` to the
old `pos`, keeps `mass` and `extForce`, and sets `vel` to
`(pos' - prevPos') / dt` when `b_updateVel` is true and keeps it otherwise. -/
theorem C3_step_verlet (p : Particle) (b_updateVel : Bool) (dt : ℚ) (_hm : p.mass ≠ 0) :
    (p.step b_updateVel dt).pos
        = ⟨2 * p.pos.x - p.prevPos.x + p.extForce.x / p.mass * dt ^ 2,
           2 * p.pos.y - p.prevPos.y + p.extForce.y / p.mass * dt ^ 2,
           2 * p.pos.z - p.prevPos.z + p.extForce.z / p.mass * dt ^ 2⟩
      ∧ (p.step b_updateVel dt).prevPos = p.pos
      ∧ (p.step b_updateVel dt).mass = p.mass
      ∧ (p.step b_updateVel dt).extForce = p.extForce
      ∧ (b_updateVel = true → (p.step b_updateVel dt).vel
          = ⟨((p.step b_updateVel dt).pos.x - (p.step b_updateVel dt).prevPos.x) / dt,
             ((p.step b_updateVel dt).pos.y - (p.step b_updateVel dt).prevPos.y) / dt,
             ((p.step b_updateVel dt).pos.z - (p.step b_updateVel dt).prevPos.z) / dt⟩)
      ∧ (b_updateVel = false → (p.step b_updateVel dt).vel = p.vel) := by
  cases b_updateVel <;>
    simp [Particle.step, Vec3.add, Vec3.sub, Vec3.smul, Vec3.sdiv, mul_comm]

/-- C3 (witness): a unit mass at rest at `(1,0,0)` pulled by the force `(-1,0,0)`
with `dt = 1/2` and the velocity update requested. -/
theorem C3_step_verlet_witness :
    (1 : ℚ) ≠ 0
      ∧ ((⟨1, ⟨1, 0, 0⟩, ⟨1, 0, 0⟩, Vec3.zero, ⟨-1, 0, 0⟩⟩ : Particle).step true (1 / 2)).pos
        = ⟨3 / 4, 0, 0⟩
      ∧ ((⟨1, ⟨1, 0, 0⟩, ⟨1, 0, 0⟩, Vec3.zero, ⟨-1, 0, 0⟩⟩ : Particle).step true (1 / 2)).vel
        = ⟨-1 / 2, 0, 0⟩ := by
  have h := C3_step_verlet ⟨1, ⟨1, 0, 0⟩, ⟨1, 0, 0⟩, Vec3.zero, ⟨-1, 0, 0⟩⟩ true (1 / 2)
    (by decide!)
  refine ⟨by decide!, ?_, ?_⟩
  · rw [h.1]; decide!
  · rw [h.2.2.2.2.1 rfl, h.1, h.2.1]; decide!

/-! ### The particle store -/

theorem at_modify (ps : Store) (p i : Nat) (f : Particle → Particle) :
    (ps.modify p f).at i = if p < ps.length ∧ i = p then f (ps.at p) else ps.at i := by
  unfold Store.modify Store.at
  by_cases hi : i = p
  · subst hi
    by_cases hp : i < ps.length
    · simp [hp, List.getD_eq_getElem?_getD, List.getElem?_set]
    · have : ps.length ≤ i := Nat.le_of_not_lt hp
      simp [hp, List.getD_eq_getElem?_getD, List.getElem?_set, List.getElem?_eq_none this]
  · have hne : ¬ p = i := fun h => hi h.symm
    simp [hi, hne, List.getD_eq_getElem?_getD, List.getElem?_set]

theorem modify_modify (ps : Store) (p : Nat) (f g : Particle → Particle) :
    (ps.modify p f).modify p g = ps.modify p (fun a => g (f a)) := by
  by_cases hp : p < ps.length
  · have h := at_modify ps p p f
    simp only [hp, true_and, if_true] at h
    unfold Store.modify at h ⊢
    rw [h, List.set_set]
  · have hle : ps.length ≤ p := Nat.le_of_not_lt hp
    unfold Store.modify
    rw [List.set_eq_of_length_le hle, List.set_eq_of_length_le hle, List.set_eq_of_length_le hle]

theorem modify_self (ps : Store) (p : Nat) (f : Particle → Particle)
    (hf : f (ps.at p) = ps.at p) : ps.modify p f = ps := by
  unfold Store.modify
  rw [hf]
  by_cases hp : p < ps.length
  · apply List.ext_getElem
    · simp
    · intro i h1 h2
      by_cases hi : p = i
      · subst hi
        simp [Store.at, List.getD_eq_getElem?_getD, List.getElem?_eq_getElem hp]
      · simp [List.getElem_set, hi]
  · exact List.set_eq_of_length_le (Nat.le_of_not_lt hp)

theorem length_modify (ps : Store) (p : Nat) (f : Particle → Particle) :
    (ps.modify p f).length = ps.length := by
  simp [Store.modify]

theorem addForces_nil (ps : Store) (p : Nat) : ps.addForces p [] = ps := by
  unfold Store.addForces
  apply modify_self
  rfl

theorem addForces_addForces (ps : Store) (p : Nat) (F1 F2 : List Vec3) :
    (ps.addForces p F1).addForces p F2 = ps.addForces p (F1 ++ F2) := by
  unfold Store.addForces
  rw [modify_modify]
  simp [List.foldl_append]

theorem modify_addExtForce (ps : Store) (p : Nat) (F : Vec3) :
    ps.modify p (fun a => a.addExtForce F) = ps.addForces p [F] := rfl

theorem addForces_pos (ps : Store) (p i : Nat) (Fs : List Vec3) :
    ((ps.addForces p Fs).at i).pos = (ps.at i).pos := by
  unfold Store.addForces
  rw [at_modify]
  split
  · rename_i h; rw [h.2]
  · rfl

theorem addForces_mass (ps : Store) (p i : Nat) (Fs : List Vec3) :
    ((ps.addForces p Fs).at i).mass = (ps.at i).mass := by
  unfold Store.addForces
  rw [at_modify]
  split
  · rename_i h; rw [h.2]
  · rfl

theorem addForces_extForce (ps : Store) (p : Nat) (Fs : List Vec3) (hp : p < ps.length) :
    ((ps.addForces p Fs).at p).extForce = Fs.foldl Vec3.add (ps.at p).extForce := by
  unfold Store.addForces
  rw [at_modify]
  simp [hp]

theorem addForces_other (ps : Store) (p i : Nat) (Fs : List Vec3) (hi : i ≠ p) :
    (ps.addForces p Fs).at i = ps.at i := by
  unfold Store.addForces
  rw [at_modify]
  simp [hi]

theorem addForces_length (ps : Store) (p : Nat) (Fs : List Vec3) :
    (ps.addForces p Fs).length = ps.length := length_modify _ _ _

theorem pairForce_addForces (sqrt : ℚ → ℚ) (epsilon G : ℚ) (ps : Store) (p i q : Nat)
    (Fs : List Vec3) :
    pairForce sqrt epsilon G (ps.addForces p Fs) i q = pairForce sqrt epsilon G ps i q := by
  simp [pairForce, addForces_pos, addForces_mass]

theorem leafContribs_addForces (sqrt : ℚ → ℚ) (epsilon G : ℚ) (ps : Store) (p i : Nat)
    (Fs : List Vec3) (t : Node) :
    leafContribs sqrt epsilon G (ps.addForces p Fs) i t = leafContribs sqrt epsilon G ps i t := by
  unfold leafContribs
  apply List.map_congr_left
  intro q _
  exact pairForce_addForces sqrt epsilon G ps p i q Fs

/-! ### The traversal with a non-positive threshold -/

theorem thetaLess_false (side d Theta : ℚ) (hs : 0 ≤ side) (hd : 0 ≤ d) (hT : Theta ≤ 0) :
    thetaLess side d Theta = false := by
  unfold thetaLess
  split
  · simp [hs]
  · have : 0 ≤ side / d := div_nonneg hs hd
    simp only [decide_eq_false_iff_not, not_lt]
    linarith

theorem leafHeads_branch (d : NodeData) (c0 c1 c2 c3 c4 c5 c6 c7 : Node) :
    (Node.branch d c0 c1 c2 c3 c4 c5 c6 c7).leafHeads
      = c0.leafHeads ++ c1.leafHeads ++ c2.leafHeads ++ c3.leafHeads ++ c4.leafHeads
        ++ c5.leafHeads ++ c6.leafHeads ++ c7.leafHeads := by
  simp [Node.leafHeads, Node.leaves, List.filterMap_append]

theorem leafContribs_branch (sqrt : ℚ → ℚ) (epsilon G : ℚ) (ps : Store) (p : Nat)
    (d : NodeData) (c0 c1 c2 c3 c4 c5 c6 c7 : Node) :
    leafContribs sqrt epsilon G ps p (Node.branch d c0 c1 c2 c3 c4 c5 c6 c7)
      = leafContribs sqrt epsilon G ps p c0 ++ leafContribs sqrt epsilon G ps p c1
        ++ leafContribs sqrt epsilon G ps p c2 ++ leafContribs sqrt epsilon G ps p c3
        ++ leafContribs sqrt epsilon G ps p c4 ++ leafContribs sqrt epsilon G ps p c5
        ++ leafContribs sqrt epsilon G ps p c6 ++ leafContribs sqrt epsilon G ps p c7 := by
  simp [leafContribs, leafHeads_branch, List.filter_append, List.map_append]

/-- With `Theta ≤ 0`, non-negative sides and a non-negative square root, the
traversal never accepts an internal node: it adds exactly the leaf-level
contributions, in traversal order. -/
theorem sumExternalForces_leafContribs (sqrt : ℚ → ℚ) (hsq : ∀ x, 0 ≤ sqrt x) (p : Nat)
    (epsilon G Theta : ℚ) (hT : Theta ≤ 0) :
    ∀ (t : Node) (ps : Store), t.sidesNonneg →
      sumExternalForces sqrt p epsilon G Theta t ps
        = ps.addForces p (leafContribs sqrt epsilon G ps p t) := by
  intro t
  induction t with
  | leaf d =>
    intro ps _
    unfold sumExternalForces
    cases hd : d.particles with
    | nil => simp [leafContribs, Node.leafHeads, Node.leaves, hd, addForces_nil]
    | cons q rest =>
      by_cases hq : q = p
      · simp [leafContribs, Node.leafHeads, Node.leaves, hd, hq, addForces_nil]
      · simp [leafContribs, Node.leafHeads, Node.leaves, hd, hq, modify_addExtForce, pairForce]
  | branch d c0 c1 c2 c3 c4 c5 c6 c7 ih0 ih1 ih2 ih3 ih4 ih5 ih6 ih7 =>
    intro ps hs
    obtain ⟨hd, h0, h1, h2, h3, h4, h5, h6, h7⟩ := hs
    have hθ : thetaLess d.side (Vec3.norm sqrt (Vec3.sub (ps.at p).pos d.com)) Theta = false :=
      thetaLess_false _ _ _ hd (hsq _) hT
    unfold sumExternalForces
    simp only [hθ, Bool.false_eq_true, if_false]
    rw [ih0 _ h0, ih1 _ h1, ih2 _ h2, ih3 _ h3, ih4 _ h4, ih5 _ h5, ih6 _ h6, ih7 _ h7]
    simp only [leafContribs_addForces, addForces_addForces, leafContribs_branch]

/-! ### The tree of a frame -/

theorem getMaxSide_nonneg (ps : Store) : 0 ≤ getMaxSide ps := by
  simp only [getMaxSide]
  split_ifs <;> linarith

theorem frameTree_nil (fuel : Nat) : frameTree fuel [] = .error Err.assertion := by
  simp [frameTree, rootOf_eq, Node.updateMassAttribs, Node.numParticles, Node.data]

theorem frameTree_eq (fuel : Nat) (ps : Store) (h : ps ≠ []) :
    frameTree fuel ps = buildTree ps fuel (frameRoot ps) := by
  have hlen : 0 < ps.length := List.length_pos.mpr h
  have hroot : 0 < (rootOf ps).numParticles := by
    simp [rootOf_eq, Node.numParticles, Node.data, hlen]
  simp only [frameTree, updateMassAttribs_ok ps (rootOf ps) hroot]
  simp [rootOf_eq, Node.setData, Node.data, Node.particles, frameRoot]

theorem sidesNonneg_side (n : Node) (h : n.sidesNonneg) : 0 ≤ n.side := by
  cases n with
  | leaf d => exact h
  | branch d _ _ _ _ _ _ _ _ => exact h.1

theorem kid_sidesNonneg (ps : Store) (n : Node) (c : Vec3) (h : 0 ≤ n.side) :
    (kid ps n c).sidesNonneg := by
  simp only [kid, Node.sidesNonneg, childOf_side]
  linarith

theorem buildTree_sidesNonneg (ps : Store) (fuel : Nat) (n t : Node)
    (h : buildTree ps fuel n = .ok t) (hn : n.sidesNonneg) : t.sidesNonneg := by
  refine buildTree_induct ps (fun n t => n.sidesNonneg → t.sidesNonneg) (fun _ _ h => h) ?_
    fuel n t h hn
  intro n b0 b1 b2 b3 b4 b5 b6 b7 _ p0 p1 p2 p3 p4 p5 p6 p7 hs
  have hside := sidesNonneg_side n hs
  exact ⟨hside, p0 (kid_sidesNonneg ps n _ hside), p1 (kid_sidesNonneg ps n _ hside),
    p2 (kid_sidesNonneg ps n _ hside), p3 (kid_sidesNonneg ps n _ hside),
    p4 (kid_sidesNonneg ps n _ hside), p5 (kid_sidesNonneg ps n _ hside),
    p6 (kid_sidesNonneg ps n _ hside), p7 (kid_sidesNonneg ps n _ hside)⟩

theorem frameTree_sidesNonneg (fuel : Nat) (ps : Store) (t : Node)
    (h : frameTree fuel ps = .ok t) : t.sidesNonneg := by
  by_cases hps : ps = []
  · subst hps
    rw [frameTree_nil] at h
    cases h
  · rw [frameTree_eq fuel ps hps] at h
    exact buildTree_sidesNonneg ps fuel _ t h (getMaxSide_nonneg ps)

/-! ### Exact summation -/

theorem vec_add_right_comm (z x y : Vec3) :
    Vec3.add (Vec3.add z x) y = Vec3.add (Vec3.add z y) x := by
  simp only [Vec3.add, Vec3.mk.injEq]
  refine ⟨?_, ?_, ?_⟩ <;> ring

/-- With `Theta ≤ 0`, if the non-empty leaves of the tree hold every particle of
the store exactly once, the traversal for `p` adds the single-pair term of every
other particle exactly once. -/
theorem forceOn_of_perm (sqrt : ℚ → ℚ) (hsq : ∀ x, 0 ≤ sqrt x) (epsilon G Theta : ℚ)
    (hT : Theta ≤ 0) (t : Node) (hs : t.sidesNonneg) (ps : Store) (p : Nat)
    (hp : p < ps.length) (hperm : t.leafHeads.Perm (List.range ps.length)) :
    forceOn sqrt epsilon G Theta t ps p
      = (((List.range ps.length).filter (fun q => q ≠ p)).map
          (pairForce sqrt epsilon G ps p)).foldl Vec3.add (ps.at p).extForce := by
  unfold forceOn
  rw [sumExternalForces_leafContribs sqrt hsq p epsilon G Theta hT t ps hs,
    addForces_extForce ps p _ hp]
  unfold leafContribs
  exact List.Perm.foldl_eq' ((hperm.filter _).map _)
    (fun x _ y _ z => vec_add_right_comm z x y) _

/-! ### C4: count conservation -/

/-- C4 (evaluation at the failing input): for two unit masses at `(3,3,3)` and
`(2,2,2)` the build of the frame returns a tree (recursion depth 2) in which
neither particle lies in two sibling cubes of any node, and the sum of
`numParticles` over the leaves is `0`, not the particle count `2`. -/
theorem C4_leaf_count_drops_particles :
    frameTree 2 diagonalPair = .ok (builtTree 2 diagonalPair)
      ∧ (builtTree 2 diagonalPair).offSharedFaces (diagonalPair.at 0).pos = true
      ∧ (builtTree 2 diagonalPair).offSharedFaces (diagonalPair.at 1).pos = true
      ∧ (builtTree 2 diagonalPair).leafCount = 0
      ∧ diagonalPair.length = 2 := by
  decide!

/-! ### C5: direct-summation equivalence -/

/-- C5 (counterexample): for two unit masses at `(-1,0,0)` and `(1,0,0)`, `G = 1`,
`epsilon = 0` and `Theta = 0`, the build returns a tree, and the force accumulated
on the first particle from a zero accumulator is `(2,0,0)` while the pairwise sum
over the one other particle is `(1/2,0,0)`: the other particle is counted by
four leaves. -/
theorem C5_counterexample_particle_counted_four_times :
    frameTree 1 twoBody = .ok (builtTree 1 twoBody)
      ∧ (twoBody.at 0).extForce = Vec3.zero
      ∧ forceOn qsqrt 0 1 0 (builtTree 1 twoBody) twoBody 0 = ⟨2, 0, 0⟩
      ∧ directSum qsqrt 0 1 twoBody 0 = ⟨1 / 2, 0, 0⟩
      ∧ forceOn qsqrt 0 1 0 (builtTree 1 twoBody) twoBody 0 ≠ directSum qsqrt 0 1 twoBody 0 := by
  decide!

/-- C5 (amended): for every store on which the build of the frame returns a tree
whose non-empty leaves hold every particle exactly once, every `Theta ≤ 0` and
every particle `p`, the force accumulated by `sumExternalForces` from a zero
accumulator equals the independent pairwise sum over all other particles, each
counted exactly once. -/
theorem C5_direct_sum_when_leaves_hold_each_particle_once (sqrt : ℚ → ℚ)
    (hsq : ∀ x, 0 ≤ sqrt x) (epsilon G Theta : ℚ) (hT : Theta ≤ 0) (fuel : Nat) (ps : Store)
    (t : Node) (ht : frameTree fuel ps = .ok t)
    (hperm : t.leafHeads.Perm (List.range ps.length)) (p : Nat) (hp : p < ps.length)
    (h0 : (ps.at p).extForce = Vec3.zero) :
    forceOn sqrt epsilon G Theta t ps p = directSum sqrt epsilon G ps p := by
  rw [forceOn_of_perm sqrt hsq epsilon G Theta hT t (frameTree_sidesNonneg fuel ps t ht) ps p hp
    hperm, h0]
  rfl

/-- C5 (witness): two unit masses at `(-1,-1,-1)` and `(1,1,1)`, each held by one leaf. -/
theorem C5_direct_sum_when_leaves_hold_each_particle_once_witness :
    (∀ x, 0 ≤ qsqrt x) ∧ (0 : ℚ) ≤ 0
      ∧ frameTree 1 antipodalPair = .ok (builtTree 1 antipodalPair)
      ∧ (builtTree 1 antipodalPair).leafHeads.Perm (List.range antipodalPair.length)
      ∧ 0 < antipodalPair.length
      ∧ (antipodalPair.at 0).extForce = Vec3.zero
      ∧ forceOn qsqrt 0 1 0 (builtTree 1 antipodalPair) antipodalPair 0
          = directSum qsqrt 0 1 antipodalPair 0 :=
  ⟨qsqrt_nonneg, le_refl 0, by decide!, by decide!, by decide!, by decide!,
    C5_direct_sum_when_leaves_hold_each_particle_once qsqrt qsqrt_nonneg 0 1 0 (le_refl 0) 1
      antipodalPair (builtTree 1 antipodalPair) (by decide!) (by decide!) 0 (by decide!)
      (by decide!)⟩

/-! ### C7: third-law symmetry -/

/-- C8 (counterexample): in the two-body scenario the force accumulated on the
first particle is `(2,0,0)`; its magnitude is `2` (squared magnitude `4`), not
`0.25` (squared magnitude `1/16`). -/
theorem C8_counterexample_force_magnitude :
    frameTree 1 twoBody = .ok (builtTree 1 twoBody)
      ∧ forceOn qsqrt 0 1 0 (builtTree 1 twoBody) twoBody 0 = ⟨2, 0, 0⟩
      ∧ Vec3.squaredNorm (forceOn qsqrt 0 1 0 (builtTree 1 twoBody) twoBody 0)
          ≠ (1 / 4 : ℚ) ^ 2 := by
  decide!

/-- C8 (amended): in the two-body scenario the build returns a tree in which each
particle is held by four leaves; the force accumulated on each particle is four
times the single-pair contribution of the other particle, has zero `y` and `z`
components, and points along the `x`-axis toward the other particle. -/
theorem C8_two_body_force_direction :
    frameTree 1 twoBody = .ok (builtTree 1 twoBody)
      ∧ (builtTree 1 twoBody).leafHeads = [0, 1, 0, 1, 0, 1, 0, 1]
      ∧ forceOn qsqrt 0 1 0 (builtTree 1 twoBody) twoBody 0
          = Vec3.smul 4 (pairForce qsqrt 0 1 twoBody 0 1)
      ∧ forceOn qsqrt 0 1 0 (builtTree 1 twoBody) twoBody 1
          = Vec3.smul 4 (pairForce qsqrt 0 1 twoBody 1 0)
      ∧ 0 < (forceOn qsqrt 0 1 0 (builtTree 1 twoBody) twoBody 0).x
      ∧ (forceOn qsqrt 0 1 0 (builtTree 1 twoBody) twoBody 0).y = 0
      ∧ (forceOn qsqrt 0 1 0 (builtTree 1 twoBody) twoBody 0).z = 0
      ∧ (forceOn qsqrt 0 1 0 (builtTree 1 twoBody) twoBody 1).x < 0
      ∧ (forceOn qsqrt 0 1 0 (builtTree 1 twoBody) twoBody 1).y = 0
      ∧ (forceOn qsqrt 0 1 0 (builtTree 1 twoBody) twoBody 1).z = 0 := by
  decide!

/-! ### The side of the root -/

theorem if_gt_eq_max (a b : ℚ) : (if b > a then b else a) = max a b := by
  rcases lt_trichotomy a b with h | h | h
  · simp [h, max_eq_right (le_of_lt h)]
  · subst h; simp
  · simp [not_lt.mpr (le_of_lt h), max_eq_left (le_of_lt h)]

theorem maxLoop_eq (ps : List Particle) (acc : ℚ × ℚ × ℚ) :
    maxLoop ps acc
      = (ps.foldl (fun a p => max a |p.pos.x|) acc.1,
         ps.foldl (fun a p => max a |p.pos.y|) acc.2.1,
         ps.foldl (fun a p => max a |p.pos.z|) acc.2.2) := by
  induction ps generalizing acc with
  | nil => simp [maxLoop]
  | cons p rest ih =>
    simp only [maxLoop, List.foldl_cons, if_gt_eq_max] at ih ⊢
    rw [ih]

theorem foldmax_init_le (g : Particle → ℚ) (ps : List Particle) (a : ℚ) :
    a ≤ ps.foldl (fun a p => max a (g p)) a := by
  induction ps generalizing a with
  | nil => simp
  | cons p rest ih =>
    simp only [List.foldl_cons]
    exact le_trans (le_max_left a (g p)) (ih _)

theorem foldmax_ge (g : Particle → ℚ) (ps : List Particle) (a : ℚ) :
    ∀ p ∈ ps, g p ≤ ps.foldl (fun a p => max a (g p)) a := by
  induction ps generalizing a with
  | nil => simp
  | cons q rest ih =>
    intro p hp
    simp only [List.foldl_cons]
    rcases List.mem_cons.mp hp with h | h
    · subst h
      exact le_trans (le_max_right a (g p)) (foldmax_init_le g rest _)
    · exact ih _ p h

theorem foldmax_attained (g : Particle → ℚ) (ps : List Particle) (a : ℚ) :
    ps.foldl (fun a p => max a (g p)) a = a
      ∨ ∃ p ∈ ps, ps.foldl (fun a p => max a (g p)) a = g p := by
  induction ps generalizing a with
  | nil => simp
  | cons q rest ih =>
    simp only [List.foldl_cons]
    rcases ih (max a (g q)) with h | ⟨p, hp, h⟩
    · rcases max_choice a (g q) with h1 | h1
      · left; rw [h, h1]
      · right; exact ⟨q, List.mem_cons_self _ _, by rw [h, h1]⟩
    · right; exact ⟨p, List.mem_cons_of_mem _ hp, h⟩

theorem foldmax_attained_zero (g : Particle → ℚ) (hg : ∀ p, 0 ≤ g p) (ps : List Particle)
    (hps : ps ≠ []) : ∃ p ∈ ps, ps.foldl (fun a p => max a (g p)) 0 = g p := by
  rcases foldmax_attained g ps 0 with h | h
  · cases ps with
    | nil => exact absurd rfl hps
    | cons q rest =>
      refine ⟨q, List.mem_cons_self _ _, ?_⟩
      have h1 := foldmax_ge g (q :: rest) 0 q (List.mem_cons_self _ _)
      rw [h] at h1 ⊢
      exact le_antisymm (hg q) h1
  · exact h

theorem getMaxSide_eq (ps : Store) :
    getMaxSide ps = 2 * max (max (max 0 (ps.foldl (fun a p => max a |p.pos.x|) 0))
      (ps.foldl (fun a p => max a |p.pos.y|) 0)) (ps.foldl (fun a p => max a |p.pos.z|) 0) := by
  simp only [getMaxSide, maxLoop_eq, if_gt_eq_max]

/-- Every coordinate of every particle is at most half of `getMaxSide` in
absolute value. -/
theorem getMaxSide_bound (ps : Store) (p : Particle) (hp : p ∈ ps) :
    |p.pos.x| ≤ getMaxSide ps / 2 ∧ |p.pos.y| ≤ getMaxSide ps / 2
      ∧ |p.pos.z| ≤ getMaxSide ps / 2 := by
  rw [getMaxSide_eq]
  have hx := foldmax_ge (fun p => |p.pos.x|) ps 0 p hp
  have hy := foldmax_ge (fun p => |p.pos.y|) ps 0 p hp
  have hz := foldmax_ge (fun p => |p.pos.z|) ps 0 p hp
  simp only [mul_div_cancel_left₀ _ (two_ne_zero : (2 : ℚ) ≠ 0)]
  refine ⟨?_, ?_, ?_⟩
  · exact le_trans hx (le_trans (le_max_right _ _) (le_trans (le_max_left _ _) (le_max_left _ _)))
  · exact le_trans hy (le_trans (le_max_right _ _) (le_max_left _ _))
  · exact le_trans hz (le_max_right _ _)

/-- For a non-empty store, half of `getMaxSide` is the absolute value of a
coordinate of some particle. -/
theorem getMaxSide_attained (ps : Store) (hps : ps ≠ []) :
    ∃ p ∈ ps, getMaxSide ps / 2 = |p.pos.x| ∨ getMaxSide ps / 2 = |p.pos.y|
      ∨ getMaxSide ps / 2 = |p.pos.z| := by
  rw [getMaxSide_eq]
  simp only [mul_div_cancel_left₀ _ (two_ne_zero : (2 : ℚ) ≠ 0)]
  obtain ⟨px, hpx, ex⟩ := foldmax_attained_zero (fun p => |p.pos.x|) (fun _ => abs_nonneg _) ps hps
  obtain ⟨py, hpy, ey⟩ := foldmax_attained_zero (fun p => |p.pos.y|) (fun _ => abs_nonneg _) ps hps
  obtain ⟨pz, hpz, ez⟩ := foldmax_attained_zero (fun p => |p.pos.z|) (fun _ => abs_nonneg _) ps hps
  have h0 : max 0 (ps.foldl (fun a p => max a |p.pos.x|) 0)
      = ps.foldl (fun a p => max a |p.pos.x|) 0 :=
    max_eq_right (foldmax_init_le (fun p => |p.pos.x|) ps 0)
  rw [h0]
  rcases max_choice (max (ps.foldl (fun a p => max a |p.pos.x|) 0)
      (ps.foldl (fun a p => max a |p.pos.y|) 0)) (ps.foldl (fun a p => max a |p.pos.z|) 0)
    with h | h
  · rcases max_choice (ps.foldl (fun a p => max a |p.pos.x|) 0)
        (ps.foldl (fun a p => max a |p.pos.y|) 0) with h1 | h1
    · exact ⟨px, hpx, Or.inl (by rw [h, h1, ex])⟩
    · exact ⟨py, hpy, Or.inr (Or.inl (by rw [h, h1, ey]))⟩
  · exact ⟨pz, hpz, Or.inr (Or.inr (by rw [h, ez]))⟩

/-! ### Fuel and termination -/

/-- More fuel does not change the result of a build that has returned. -/
theorem buildTree_mono (ps : Store) :
    ∀ (fuel : Nat) (n t : Node), buildTree ps fuel n = .ok t →
      ∀ k, buildTree ps (fuel + k) n = .ok t := by
  intro fuel
  induction fuel with
  | zero =>
    intro n t h k
    by_cases h1 : n.numParticles ≤ 1
    · rw [buildTree_small ps 0 n h1] at h
      rw [buildTree_small ps _ n h1, h]
    · rw [buildTree_zero ps n (Nat.not_le.mp h1)] at h
      cases h
  | succ f ih =>
    intro n t h k
    by_cases h1 : n.numParticles ≤ 1
    · rw [buildTree_small ps _ n h1] at h
      rw [buildTree_small ps _ n h1, h]
    · have h2 : 1 < n.numParticles := Nat.not_le.mp h1
      rw [buildTree_succ ps f n h2] at h
      obtain ⟨b0, e0, h⟩ := bind_eq_ok h
      obtain ⟨b1, e1, h⟩ := bind_eq_ok h
      obtain ⟨b2, e2, h⟩ := bind_eq_ok h
      obtain ⟨b3, e3, h⟩ := bind_eq_ok h
      obtain ⟨b4, e4, h⟩ := bind_eq_ok h
      obtain ⟨b5, e5, h⟩ := bind_eq_ok h
      obtain ⟨b6, e6, h⟩ := bind_eq_ok h
      obtain ⟨b7, e7, h⟩ := bind_eq_ok h
      have hk : f + 1 + k = (f + k) + 1 := by omega
      rw [hk, buildTree_succ ps (f + k) n h2, ih _ _ e0 k, ih _ _ e1 k, ih _ _ e2 k,
        ih _ _ e3 k, ih _ _ e4 k, ih _ _ e5 k, ih _ _ e6 k, ih _ _ e7 k]
      exact h

theorem frameTree_mono (fuel : Nat) (ps : Store) (t : Node) (h : frameTree fuel ps = .ok t)
    (k : Nat) : frameTree (fuel + k) ps = .ok t := by
  by_cases hps : ps = []
  · subst hps
    rw [frameTree_nil] at h
    cases h
  · rw [frameTree_eq _ ps hps] at h ⊢
    exact buildTree_mono ps fuel _ t h k

theorem kid_side (ps : Store) (n : Node) (c : Vec3) : (kid ps n c).side = n.side / 2 :=
  childOf_side ps n.particles c (n.side / 2)

theorem kid_particles (ps : Store) (n : Node) (c : Vec3) :
    (kid ps n c).particles
      = n.particles.filter (fun i => (Node.new c (n.side / 2)).inBounds (ps.at i).pos) :=
  childOf_particles ps n.particles c (n.side / 2)

theorem kid_numParticles (ps : Store) (n : Node) (c : Vec3) :
    (kid ps n c).numParticles = (kid ps n c).particles.length := rfl

theorem not_inBounds_of_far (s : ℚ) (c pt : Vec3)
    (hc : |c.x| ≤ s / 4 ∧ |c.y| ≤ s / 4 ∧ |c.z| ≤ s / 4)
    (hfar : s / 2 < |pt.x| ∨ s / 2 < |pt.y| ∨ s / 2 < |pt.z|) :
    (Node.new c (s / 2)).inBounds pt = false := by
  by_contra h
  simp only [Node.inBounds, Node.new, Node.center, Node.side, Node.data, Bool.and_eq_true,
    decide_eq_true_eq, Bool.not_eq_false] at h
  obtain ⟨⟨⟨x1, x2⟩, y1, y2⟩, z1, z2⟩ := h
  obtain ⟨cx, cy, cz⟩ := hc
  have cx1 := (abs_le.mp cx).1
  have cx2 := (abs_le.mp cx).2
  have cy1 := (abs_le.mp cy).1
  have cy2 := (abs_le.mp cy).2
  have cz1 := (abs_le.mp cz).1
  have cz2 := (abs_le.mp cz).2
  rcases hfar with hf | hf | hf <;> rcases lt_abs.mp hf with hf1 | hf1 <;> linarith

/-- A node whose particles all lie outside the cube of its side centred at the
origin is subdivided into eight empty children: the build returns at depth 1. -/
theorem buildTree_far (ps : Store) (n : Node) (hs : 0 ≤ n.side)
    (hfar : ∀ i ∈ n.particles, n.side / 2 < |(ps.at i).pos.x| ∨ n.side / 2 < |(ps.at i).pos.y|
      ∨ n.side / 2 < |(ps.at i).pos.z|) :
    ∃ b, ∀ f, buildTree ps (f + 1) n = .ok b := by
  by_cases h1 : n.numParticles ≤ 1
  · exact ⟨n, fun f => buildTree_small ps _ n h1⟩
  · have h2 : 1 < n.numParticles := Nat.not_le.mp h1
    have hkid : ∀ c : Vec3, (|c.x| ≤ n.side / 4 ∧ |c.y| ≤ n.side / 4 ∧ |c.z| ≤ n.side / 4) →
        ∀ f, buildTree ps f (kid ps n c) = .ok (kid ps n c) := by
      intro c hc f
      apply buildTree_small
      have hp : (kid ps n c).particles = [] := by
        rw [kid_particles, List.filter_eq_nil_iff]
        intro i hi
        rw [not_inBounds_of_far n.side c _ hc (hfar i hi)]
        simp
      simp [kid_numParticles, hp]
    have e : n.side / 2 / 2 = n.side / 4 := by ring
    have a1 : |n.side / 2 / 2| ≤ n.side / 4 := by
      rw [e, abs_of_nonneg (by linarith)]
    have a2 : |-(n.side / 2 / 2)| ≤ n.side / 4 := by
      rw [abs_neg]; exact a1
    refine ⟨Node.branch n.data
      (kid ps n ⟨-(n.side / 2 / 2), -(n.side / 2 / 2), n.side / 2 / 2⟩)
      (kid ps n ⟨n.side / 2 / 2, -(n.side / 2 / 2), n.side / 2 / 2⟩)
      (kid ps n ⟨-(n.side / 2 / 2), -(n.side / 2 / 2), -(n.side / 2 / 2)⟩)
      (kid ps n ⟨n.side / 2 / 2, -(n.side / 2 / 2), -(n.side / 2 / 2)⟩)
      (kid ps n ⟨-(n.side / 2 / 2), n.side / 2 / 2, n.side / 2 / 2⟩)
      (kid ps n ⟨n.side / 2 / 2, n.side / 2 / 2, n.side / 2 / 2⟩)
      (kid ps n ⟨-(n.side / 2 / 2), n.side / 2 / 2, -(n.side / 2 / 2)⟩)
      (kid ps n ⟨n.side / 2 / 2, n.side / 2 / 2, -(n.side / 2 / 2)⟩), fun f => ?_⟩
    rw [buildTree_succ ps f n h2,
      hkid ⟨-(n.side / 2 / 2), -(n.side / 2 / 2), n.side / 2 / 2⟩ ⟨a2, a2, a1⟩ f,
      hkid ⟨n.side / 2 / 2, -(n.side / 2 / 2), n.side / 2 / 2⟩ ⟨a1, a2, a1⟩ f,
      hkid ⟨-(n.side / 2 / 2), -(n.side / 2 / 2), -(n.side / 2 / 2)⟩ ⟨a2, a2, a2⟩ f,
      hkid ⟨n.side / 2 / 2, -(n.side / 2 / 2), -(n.side / 2 / 2)⟩ ⟨a1, a2, a2⟩ f,
      hkid ⟨-(n.side / 2 / 2), n.side / 2 / 2, n.side / 2 / 2⟩ ⟨a2, a1, a1⟩ f,
      hkid ⟨n.side / 2 / 2, n.side / 2 / 2, n.side / 2 / 2⟩ ⟨a1, a1, a1⟩ f,
      hkid ⟨-(n.side / 2 / 2), n.side / 2 / 2, -(n.side / 2 / 2)⟩ ⟨a2, a1, a2⟩ f,
      hkid ⟨n.side / 2 / 2, n.side / 2 / 2, -(n.side / 2 / 2)⟩ ⟨a1, a1, a2⟩ f]
    rfl

/-- A node of side `0` that owns at least two particles, all at the origin, is
subdivided at every depth: no amount of fuel lets the build return. -/
theorem buildTree_origin_diverges (ps : Store) :
    ∀ (fuel : Nat) (n : Node), n.side = 0 → 1 < n.numParticles →
      (∀ i ∈ n.particles, (ps.at i).pos = Vec3.zero) →
      buildTree ps fuel n = .error Err.fuel := by
  intro fuel
  induction fuel with
  | zero =>
    intro n _ h2 _
    exact buildTree_zero ps n h2
  | succ f ih =>
    intro n hs h2 hz
    have hp : (kid ps n ⟨-(n.side / 2 / 2), -(n.side / 2 / 2), n.side / 2 / 2⟩).particles
        = n.particles := by
      rw [kid_particles, List.filter_eq_self]
      intro i hi
      rw [hz i hi, hs]
      simp [Node.inBounds, Node.new, Node.center, Node.side, Node.data, Vec3.zero]
    have hk : buildTree ps f (kid ps n ⟨-(n.side / 2 / 2), -(n.side / 2 / 2), n.side / 2 / 2⟩)
        = .error Err.fuel := by
      apply ih
      · rw [kid_side, hs]; norm_num
      · rw [kid_numParticles, hp]; exact h2
      · intro i hi
        rw [hp] at hi
        exact hz i hi
    rw [buildTree_succ ps f n h2, hk]
    rfl

/-! ### C6: coincident particles -/

theorem at_mem (ps : Store) (i : Nat) (h : i < ps.length) : ps.at i ∈ ps := by
  simp only [Store.at, List.getD_eq_getElem?_getD, List.getElem?_eq_getElem h, Option.getD_some]
  exact List.getElem_mem h

theorem frameRoot_side (ps : Store) : (frameRoot ps).side = getMaxSide ps := rfl

theorem frameRoot_particles (ps : Store) : (frameRoot ps).particles = List.range ps.length := rfl

theorem frameRoot_numParticles (ps : Store) : (frameRoot ps).numParticles = ps.length := by
  simp [frameRoot, Node.numParticles, Node.data]

/-- C6 (counterexample): for two particles at the origin no recursion depth
lets the build of the frame return a tree. -/
theorem C6_counterexample_origin_pair_never_returns :
    2 ≤ originPair.length ∧ (∀ p ∈ originPair, p.pos = Vec3.zero)
      ∧ ¬ ∃ fuel t, frameTree fuel originPair = .ok t := by
  refine ⟨by decide!, by decide!, ?_⟩
  rintro ⟨fuel, t, h⟩
  rw [frameTree_eq fuel originPair (by decide!),
    buildTree_origin_diverges originPair fuel (frameRoot originPair) (by decide!) (by decide!)
      (by decide!)] at h
  cases h

/-- C6 (amended): for `N ≥ 2` particles that are all at the origin, the build of the
frame returns at no recursion depth: the root has side `0`, every child again
owns all `N` particles, and `buildTree` has no depth or side limit. -/
theorem C6_origin_coincident_build_never_returns (ps : Store) (hN : 2 ≤ ps.length)
    (hx : ∀ p ∈ ps, p.pos = Vec3.zero) :
    getMaxSide ps = 0 ∧ ∀ fuel, frameTree fuel ps = .error Err.fuel := by
  have hps : ps ≠ [] := by
    intro h
    rw [h] at hN
    simp at hN
  have hnum : 1 < (frameRoot ps).numParticles := by
    rw [frameRoot_numParticles]; omega
  have hside : getMaxSide ps = 0 := by
    obtain ⟨q, hq, hatt⟩ := getMaxSide_attained ps hps
    rw [hx q hq] at hatt
    simp only [Vec3.zero, abs_zero, or_self] at hatt
    linarith
  refine ⟨hside, fun fuel => ?_⟩
  rw [frameTree_eq fuel ps hps]
  apply buildTree_origin_diverges ps fuel (frameRoot ps) _ hnum
  · intro i hi
    rw [frameRoot_particles, List.mem_range] at hi
    exact hx _ (at_mem ps i hi)
  · rw [frameRoot_side]
    exact hside

/-- C6 (witness): three particles of masses `1`, `2`, `3` at the origin. -/
theorem C6_origin_coincident_build_never_returns_witness :
    2 ≤ originTriple.length ∧ (∀ p ∈ originTriple, p.pos = Vec3.zero)
      ∧ (getMaxSide originTriple = 0 ∧ ∀ fuel, frameTree fuel originTriple = .error Err.fuel) :=
  ⟨by decide!, by decide!,
    C6_origin_coincident_build_never_returns originTriple (by decide!) (by decide!)⟩

/-! ### The two-body scenario, one frame in exact arithmetic -/

theorem new_zero_vel (m : ℚ) (pos : Vec3) (dt : ℚ) :
    Particle.new m pos Vec3.zero dt = restingParticle m pos := by
  simp [Particle.new, restingParticle, Vec3.add, Vec3.smul, Vec3.zero]

/-- The force term between two bodies on the `x`-axis, without softening, for
a square root that is exact on squares. -/
theorem forceTerm_axis (sqrt : ℚ → ℚ) (hs : ∀ x, sqrt (x * x) = |x|) (G m1 m2 a : ℚ) :
    forceTerm sqrt 0 G m1 m2 ⟨a, 0, 0⟩ = ⟨-1 * G * m1 * m2 * a / a ^ 2, 0, 0⟩ := by
  have hn : Vec3.norm sqrt ⟨a, 0, 0⟩ = |a| := by
    simp [Vec3.norm, Vec3.squaredNorm, hs]
  simp [forceTerm_eq, hn, Vec3.sdiv, Vec3.smul, sq_abs]

theorem gravityStep_eq (sqrt : ℚ → ℚ) (hsq : ∀ x, 0 ≤ sqrt x) (epsilon G Theta dt : ℚ)
    (hT : Theta ≤ 0) (t : Node) (ht : t.sidesNonneg) (ps : Store) (j : Nat) :
    gravityStep sqrt epsilon G Theta dt t ps j
      = ((ps.addForces j (leafContribs sqrt epsilon G ps j t)).modify j
          (fun a => a.step false dt)).modify j (fun a => a.setExtForce Vec3.zero) := by
  simp only [gravityStep, sumExternalForces_leafContribs sqrt hsq j epsilon G Theta hT t ps ht]

theorem twoBody_tree :
    frameTree 1 twoBody = .ok (builtTree 1 twoBody)
      ∧ (builtTree 1 twoBody).leafHeads = [0, 1, 0, 1, 0, 1, 0, 1] := by
  decide!

theorem twoBody_step0 (sqrt : ℚ → ℚ) (hsq : ∀ x, 0 ≤ sqrt x) (hs : ∀ x, sqrt (x * x) = |x|)
    (dt : ℚ) :
    gravityStep sqrt 0 1 0 dt (builtTree 1 twoBody) twoBody 0
      = [⟨1, ⟨-1, 0, 0⟩, ⟨-1 + 2 * dt ^ 2, 0, 0⟩, Vec3.zero, Vec3.zero⟩,
         ⟨1, ⟨1, 0, 0⟩, ⟨1, 0, 0⟩, Vec3.zero, Vec3.zero⟩] := by
  rw [gravityStep_eq sqrt hsq 0 1 0 dt (le_refl 0) _
    (frameTree_sidesNonneg 1 twoBody _ twoBody_tree.1)]
  simp only [leafContribs, twoBody_tree.2]
  have hf : (List.filter (fun q => decide (q ≠ 0)) [0, 1, 0, 1, 0, 1, 0, 1]) = [1, 1, 1, 1] := by
    decide
  rw [hf]
  have hp : pairForce sqrt 0 1 twoBody 0 1 = ⟨1 / 2, 0, 0⟩ := by
    have := forceTerm_axis sqrt hs 1 1 1 (-2)
    simp only [pairForce, twoBody, Store.at, restingParticle, Particle.new, Vec3.sub, Vec3.add,
      Vec3.smul, Vec3.zero, List.getD_cons_zero, List.getD_cons_succ]
    norm_num at this ⊢
    rw [this]
  simp only [List.map_cons, List.map_nil, hp]
  simp [Store.addForces, Store.modify, Store.at, twoBody, restingParticle, Particle.new,
    Particle.step, Particle.setExtForce, Vec3.add, Vec3.sub, Vec3.smul, Vec3.sdiv, Vec3.zero]
  ring

theorem twoBody_step1 (sqrt : ℚ → ℚ) (hsq : ∀ x, 0 ≤ sqrt x) (hs : ∀ x, sqrt (x * x) = |x|)
    (dt : ℚ) :
    gravityStep sqrt 0 1 0 dt (builtTree 1 twoBody)
        [⟨1, ⟨-1, 0, 0⟩, ⟨-1 + 2 * dt ^ 2, 0, 0⟩, Vec3.zero, Vec3.zero⟩,
         ⟨1, ⟨1, 0, 0⟩, ⟨1, 0, 0⟩, Vec3.zero, Vec3.zero⟩] 1
      = [⟨1, ⟨-1, 0, 0⟩, ⟨-1 + 2 * dt ^ 2, 0, 0⟩, Vec3.zero, Vec3.zero⟩,
         ⟨1, ⟨1, 0, 0⟩, ⟨1 - 4 * (2 - 2 * dt ^ 2) / (2 - 2 * dt ^ 2) ^ 2 * dt ^ 2, 0, 0⟩,
           Vec3.zero, Vec3.zero⟩] := by
  rw [gravityStep_eq sqrt hsq 0 1 0 dt (le_refl 0) _
    (frameTree_sidesNonneg 1 twoBody _ twoBody_tree.1)]
  simp only [leafContribs, twoBody_tree.2]
  have hf : (List.filter (fun q => decide (q ≠ 1)) [0, 1, 0, 1, 0, 1, 0, 1]) = [0, 0, 0, 0] := by
    decide
  rw [hf]
  have hp : pairForce sqrt 0 1
      [⟨1, ⟨-1, 0, 0⟩, ⟨-1 + 2 * dt ^ 2, 0, 0⟩, Vec3.zero, Vec3.zero⟩,
         ⟨1, ⟨1, 0, 0⟩, ⟨1, 0, 0⟩, Vec3.zero, Vec3.zero⟩] 1 0
      = ⟨-(2 - 2 * dt ^ 2) / (2 - 2 * dt ^ 2) ^ 2, 0, 0⟩ := by
    have := forceTerm_axis sqrt hs 1 1 1 (1 - (-1 + 2 * dt ^ 2))
    simp only [pairForce, Store.at, Vec3.sub, List.getD_cons_zero, List.getD_cons_succ, sub_zero]
    rw [this]
    have e : (1 : ℚ) - (-1 + 2 * dt ^ 2) = 2 - 2 * dt ^ 2 := by ring
    rw [e]
    simp
  simp only [List.map_cons, List.map_nil, hp]
  simp [Store.addForces, Store.modify, Store.at,
    Particle.step, Particle.setExtForce, Vec3.add, Vec3.sub, Vec3.smul, Vec3.sdiv, Vec3.zero]
  ring

/-- In exact arithmetic (no rounding), in the two-body scenario (unit masses
created at `(-1,0,0)` and `(1,0,0)` with zero velocity, `G = 1`, `epsilon = 0`,
`Theta = 0`) and for `0 < dt ≤ 0.1`, one execution of the frame-loop body returns
(with any recursion bound of at least 1) a store in which the first particle
has `x > -1`, the second has `x < 1`, the `x`-distance is below `2`, and all `y` and
`z` coordinates are `0`.  The square root is any non-negative function that is
exact on squares.  The strictness is a property of exact arithmetic only: in
binary64 an increment `2 * dt ^ 2` below half an ulp of `1` is absorbed by the
addition in `Particle::step`. -/
theorem twoBody_frame_exact_arithmetic (sqrt : ℚ → ℚ) (hsq : ∀ x, 0 ≤ sqrt x)
    (hs : ∀ x, sqrt (x * x) = |x|) (dt : ℚ) (h0 : 0 < dt) (h1 : dt ≤ 1 / 10) (k : Nat) :
    ∃ ps1, frameBody sqrt (1 + k) 0 1 0 dt
          [Particle.new 1 ⟨-1, 0, 0⟩ Vec3.zero dt, Particle.new 1 ⟨1, 0, 0⟩ Vec3.zero dt]
        = .ok ps1
      ∧ -1 < (ps1.at 0).pos.x ∧ (ps1.at 1).pos.x < 1
      ∧ |(ps1.at 1).pos.x - (ps1.at 0).pos.x| < 2
      ∧ (ps1.at 0).pos.y = 0 ∧ (ps1.at 0).pos.z = 0
      ∧ (ps1.at 1).pos.y = 0 ∧ (ps1.at 1).pos.z = 0 := by
  have htree : frameTree (1 + k) twoBody = .ok (builtTree 1 twoBody) :=
    frameTree_mono 1 twoBody _ twoBody_tree.1 k
  have hbody : frameBody sqrt (1 + k) 0 1 0 dt twoBody
      = .ok [⟨1, ⟨-1, 0, 0⟩, ⟨-1 + 2 * dt ^ 2, 0, 0⟩, Vec3.zero, Vec3.zero⟩,
         ⟨1, ⟨1, 0, 0⟩, ⟨1 - 4 * (2 - 2 * dt ^ 2) / (2 - 2 * dt ^ 2) ^ 2 * dt ^ 2, 0, 0⟩,
           Vec3.zero, Vec3.zero⟩] := by
    have hr : List.range twoBody.length = [0, 1] := by decide
    simp only [frameBody, htree, hr, List.foldl_cons, List.foldl_nil,
      twoBody_step0 sqrt hsq hs dt, twoBody_step1 sqrt hsq hs dt]
  have hd2 : 0 < dt ^ 2 := by positivity
  have hd3 : dt ^ 2 ≤ 1 / 100 := by nlinarith
  have ha : 0 < 2 - 2 * dt ^ 2 := by linarith
  have hq : 4 * (2 - 2 * dt ^ 2) / (2 - 2 * dt ^ 2) ^ 2 * dt ^ 2
      = 4 * dt ^ 2 / (2 - 2 * dt ^ 2) := by
    field_simp
    ring
  have hq0 : 0 < 4 * dt ^ 2 / (2 - 2 * dt ^ 2) := by positivity
  have hq1 : 4 * dt ^ 2 / (2 - 2 * dt ^ 2) ≤ 1 := by
    rw [div_le_one ha]
    linarith
  rw [new_zero_vel, new_zero_vel]
  refine ⟨_, hbody, ?_⟩
  · simp only [Store.at, List.getD_cons_zero, List.getD_cons_succ, hq]
    refine ⟨by linarith, by linarith, ?_, ?_⟩
    · rw [abs_lt]
      constructor <;> linarith
    · simp

/-! ### C10: self-exclusion -/

/-- C10: for a leaf whose single owned particle is `p` itself (the same pointer),
`sumExternalForces` for `p` returns the store unchanged and performs no division,
whatever `epsilon`, `G` and `Theta`.  For a leaf whose single owned particle `q` is a
different pointer that has the position and the mass of `p`, the force branch
is executed: exactly one division `Fdenom / Fnum` is performed, with
`Fnum = sqrt(0)^2 + epsilon^2`, and when this divisor is non-zero the force term is
added to the accumulator of `p`. -/
theorem C10_self_leaf_excluded_by_identity (sqrt : ℚ → ℚ) (epsilon G Theta : ℚ) (ps : Store)
    (p : Nat) (d : NodeData) (hd : d.particles = [p]) :
    sumExternalForces sqrt p epsilon G Theta (Node.leaf d) ps = ps
      ∧ divisions sqrt p epsilon G Theta (Node.leaf d) ps = []
      ∧ ∀ (q : Nat) (e : NodeData), e.particles = [q] → q ≠ p →
          (ps.at q).pos = (ps.at p).pos → (ps.at q).mass = (ps.at p).mass →
          divisions sqrt p epsilon G Theta (Node.leaf e) ps
              = [Event.leafForce ((sqrt 0) ^ 2 + epsilon ^ 2)]
            ∧ ((sqrt 0) ^ 2 + epsilon ^ 2 ≠ 0 →
                sumExternalForces sqrt p epsilon G Theta (Node.leaf e) ps
                  = ps.modify p (fun a => a.addExtForce
                      (forceTerm sqrt epsilon G (ps.at p).mass (ps.at q).mass
                        (Vec3.sub (ps.at p).pos (ps.at q).pos)))) := by
  refine ⟨?_, ?_, ?_⟩
  · simp [sumExternalForces, hd]
  · simp [divisions, sumExternalForcesTrace, hd]
  · intro q e he hq hpos _
    constructor
    · simp [divisions, sumExternalForcesTrace, he, hq, hpos, forceDivisor, Vec3.norm,
        Vec3.squaredNorm, Vec3.sub]
    · intro _
      simp [sumExternalForces, he, hq]

/-- C10 (witness): the first of two coincident unit masses against its own leaf
(no division) and against the leaf of the second (one division, by `1`). -/
theorem C10_self_leaf_excluded_by_identity_witness :
    (⟨Vec3.zero, Vec3.zero, 1, 1, [0]⟩ : NodeData).particles = [0]
      ∧ (sumExternalForces qsqrt 0 1 1 (1 / 2) (Node.leaf ⟨Vec3.zero, Vec3.zero, 1, 1, [0]⟩)
            coincidentPair = coincidentPair
        ∧ divisions qsqrt 0 1 1 (1 / 2) (Node.leaf ⟨Vec3.zero, Vec3.zero, 1, 1, [0]⟩)
            coincidentPair = [])
      ∧ ((1 : Nat) ≠ 0 ∧ (coincidentPair.at 1).pos = (coincidentPair.at 0).pos
          ∧ (coincidentPair.at 1).mass = (coincidentPair.at 0).mass)
      ∧ divisions qsqrt 0 1 1 (1 / 2) (Node.leaf ⟨Vec3.zero, Vec3.zero, 1, 1, [1]⟩)
          coincidentPair = [Event.leafForce ((qsqrt 0) ^ 2 + 1 ^ 2)]
      ∧ (qsqrt 0) ^ 2 + (1 : ℚ) ^ 2 = 1 :=
  ⟨rfl,
    ⟨(C10_self_leaf_excluded_by_identity qsqrt 1 1 (1 / 2) coincidentPair 0
        ⟨Vec3.zero, Vec3.zero, 1, 1, [0]⟩ rfl).1,
      (C10_self_leaf_excluded_by_identity qsqrt 1 1 (1 / 2) coincidentPair 0
        ⟨Vec3.zero, Vec3.zero, 1, 1, [0]⟩ rfl).2.1⟩,
    ⟨by decide, rfl, rfl⟩,
    ((C10_self_leaf_excluded_by_identity qsqrt 1 1 (1 / 2) coincidentPair 0
      ⟨Vec3.zero, Vec3.zero, 1, 1, [0]⟩ rfl).2.2 1 ⟨Vec3.zero, Vec3.zero, 1, 1, [1]⟩ rfl
      (by decide) rfl rfl).1,
    by decide!⟩

/-! ### The traversal and its record of divisions -/

theorem forceTerm_divisor (sqrt : ℚ → ℚ) (epsilon G m1 m2 : ℚ) (r : Vec3) :
    forceTerm sqrt epsilon G m1 m2 r
      = Vec3.sdiv (Vec3.smul (-1 * G * m1 * m2) r) (forceDivisor sqrt epsilon r) := rfl

theorem forceDivisor_eq (sqrt : ℚ → ℚ) (epsilon : ℚ) (r : Vec3) :
    forceDivisor sqrt epsilon r = (Vec3.norm sqrt r) ^ 2 + epsilon ^ 2 := by
  simp [forceDivisor]

theorem forceDivisor_pos (sqrt : ℚ → ℚ) (epsilon : ℚ) (h : epsilon ≠ 0) (r : Vec3) :
    0 < forceDivisor sqrt epsilon r := by
  rw [forceDivisor_eq]
  have h1 : 0 ≤ (Vec3.norm sqrt r) ^ 2 := sq_nonneg _
  have h2 : 0 < epsilon ^ 2 := by positivity
  linarith

/-- The traversal changes the store only by adding forces to the accumulator of `p`. -/
theorem sumExternalForces_addForces (sqrt : ℚ → ℚ) (p : Nat) (epsilon G Theta : ℚ) :
    ∀ (t : Node) (ps : Store),
      ∃ Fs, sumExternalForces sqrt p epsilon G Theta t ps = ps.addForces p Fs := by
  intro t
  induction t with
  | leaf d =>
    intro ps
    unfold sumExternalForces
    cases hd : d.particles with
    | nil => exact ⟨[], by simp [addForces_nil]⟩
    | cons q rest =>
      by_cases hq : q = p
      · exact ⟨[], by simp [hq, addForces_nil]⟩
      · exact ⟨[forceTerm sqrt epsilon G (ps.at p).mass (ps.at q).mass
          (Vec3.sub (ps.at p).pos (ps.at q).pos)],
          by simp only [hq, if_false, modify_addExtForce]⟩
  | branch d c0 c1 c2 c3 c4 c5 c6 c7 ih0 ih1 ih2 ih3 ih4 ih5 ih6 ih7 =>
    intro ps
    unfold sumExternalForces
    by_cases hθ : thetaLess d.side (Vec3.norm sqrt (Vec3.sub (ps.at p).pos d.com)) Theta = true
    · exact ⟨[forceTerm sqrt epsilon G (ps.at p).mass d.totalMass
          (Vec3.sub (ps.at p).pos d.com)],
        by simp only [hθ, if_true, modify_addExtForce]⟩
    · simp only [hθ, Bool.false_eq_true, if_false]
      obtain ⟨F0, e0⟩ := ih0 ps
      rw [e0]
      obtain ⟨F1, e1⟩ := ih1 (ps.addForces p F0)
      rw [e1, addForces_addForces]
      obtain ⟨F2, e2⟩ := ih2 (ps.addForces p (F0 ++ F1))
      rw [e2, addForces_addForces]
      obtain ⟨F3, e3⟩ := ih3 (ps.addForces p (F0 ++ F1 ++ F2))
      rw [e3, addForces_addForces]
      obtain ⟨F4, e4⟩ := ih4 (ps.addForces p (F0 ++ F1 ++ F2 ++ F3))
      rw [e4, addForces_addForces]
      obtain ⟨F5, e5⟩ := ih5 (ps.addForces p (F0 ++ F1 ++ F2 ++ F3 ++ F4))
      rw [e5, addForces_addForces]
      obtain ⟨F6, e6⟩ := ih6 (ps.addForces p (F0 ++ F1 ++ F2 ++ F3 ++ F4 ++ F5))
      rw [e6, addForces_addForces]
      obtain ⟨F7, e7⟩ := ih7 (ps.addForces p (F0 ++ F1 ++ F2 ++ F3 ++ F4 ++ F5 ++ F6))
      rw [e7, addForces_addForces]
      exact ⟨_, rfl⟩

theorem sumExternalForces_pos (sqrt : ℚ → ℚ) (p : Nat) (epsilon G Theta : ℚ) (t : Node)
    (ps : Store) (i : Nat) :
    ((sumExternalForces sqrt p epsilon G Theta t ps).at i).pos = (ps.at i).pos := by
  obtain ⟨Fs, e⟩ := sumExternalForces_addForces sqrt p epsilon G Theta t ps
  rw [e, addForces_pos]

/-- The recorded traversal updates the store exactly as `sumExternalForces`. -/
theorem trace_fst (sqrt : ℚ → ℚ) (p : Nat) (epsilon G Theta : ℚ) :
    ∀ (t : Node) (s : Store × List Event),
      (sumExternalForcesTrace sqrt p epsilon G Theta t s).1
        = sumExternalForces sqrt p epsilon G Theta t s.1 := by
  intro t
  induction t with
  | leaf d =>
    intro s
    unfold sumExternalForcesTrace sumExternalForces
    cases hd : d.particles with
    | nil => rfl
    | cons q rest =>
      by_cases hq : q = p
      · simp [hq]
      · simp [hq]
  | branch d c0 c1 c2 c3 c4 c5 c6 c7 ih0 ih1 ih2 ih3 ih4 ih5 ih6 ih7 =>
    intro s
    unfold sumExternalForcesTrace sumExternalForces
    by_cases hθ : thetaLess d.side (Vec3.norm sqrt (Vec3.sub (s.1.at p).pos d.com)) Theta = true
    · simp only [hθ, if_true]
    · simp only [hθ, Bool.false_eq_true, if_false]
      rw [ih7, ih6, ih5, ih4, ih3, ih2, ih1, ih0]

theorem trace_pos (sqrt : ℚ → ℚ) (p : Nat) (epsilon G Theta : ℚ) (t : Node)
    (s : Store × List Event) (i : Nat) :
    (((sumExternalForcesTrace sqrt p epsilon G Theta t s).1).at i).pos = (s.1.at i).pos := by
  rw [trace_fst, sumExternalForces_pos]

theorem eventsOf_congr (sqrt : ℚ → ℚ) (p : Nat) (epsilon Theta : ℚ) (ps1 ps2 : Store)
    (h : ∀ i, (ps1.at i).pos = (ps2.at i).pos) :
    ∀ t : Node, eventsOf sqrt p epsilon Theta ps1 t = eventsOf sqrt p epsilon Theta ps2 t := by
  intro t
  induction t with
  | leaf d => simp only [eventsOf, h]
  | branch d c0 c1 c2 c3 c4 c5 c6 c7 ih0 ih1 ih2 ih3 ih4 ih5 ih6 ih7 =>
    simp only [eventsOf, h, ih0, ih1, ih2, ih3, ih4, ih5, ih6, ih7]

/-- The record of the traversal is the old record followed by the divisions
computed from the tree and the positions of the store. -/
theorem trace_snd_general (sqrt : ℚ → ℚ) (p : Nat) (epsilon G Theta : ℚ) :
    ∀ (t : Node) (s : Store × List Event) (ps0 : Store),
      (∀ i, (s.1.at i).pos = (ps0.at i).pos) →
      (sumExternalForcesTrace sqrt p epsilon G Theta t s).2
        = s.2 ++ eventsOf sqrt p epsilon Theta ps0 t := by
  intro t
  induction t with
  | leaf d =>
    intro s ps0 hpos
    unfold sumExternalForcesTrace eventsOf
    cases hd : d.particles with
    | nil => simp
    | cons q rest =>
      by_cases hq : q = p
      · simp [hq]
      · simp [hq, hpos]
  | branch d c0 c1 c2 c3 c4 c5 c6 c7 ih0 ih1 ih2 ih3 ih4 ih5 ih6 ih7 =>
    intro s ps0 hpos
    unfold sumExternalForcesTrace eventsOf
    rw [hpos p]
    by_cases hθ : thetaLess d.side (Vec3.norm sqrt (Vec3.sub (ps0.at p).pos d.com)) Theta = true
    · simp only [hθ, if_true]
    · simp only [hθ, Bool.false_eq_true, if_false]
      rw [ih7 _ ps0, ih6 _ ps0, ih5 _ ps0, ih4 _ ps0, ih3 _ ps0, ih2 _ ps0, ih1 _ ps0,
        ih0 _ ps0]
      · simp only [List.append_assoc, List.cons_append, List.nil_append]
      all_goals (intro i; simp only [trace_pos]; exact hpos i)

theorem divisions_eq (sqrt : ℚ → ℚ) (p : Nat) (epsilon G Theta : ℚ) (t : Node) (ps : Store) :
    divisions sqrt p epsilon G Theta t ps = eventsOf sqrt p epsilon Theta ps t := by
  unfold divisions
  rw [trace_snd_general sqrt p epsilon G Theta t (ps, []) ps (fun _ => rfl)]
  simp

/-! ### C14: degradation monotonicity -/

theorem thetaLess_mono (side d Theta1 Theta2 : ℚ) (h : Theta1 ≤ Theta2)
    (h1 : thetaLess side d Theta1 = true) : thetaLess side d Theta2 = true := by
  unfold thetaLess at h1 ⊢
  split
  · rename_i hd
    simpa [hd] using h1
  · rename_i hd
    simp only [hd, if_false, decide_eq_true_eq] at h1 ⊢
    linarith

theorem leafForceCount_append (a b : List Event) :
    leafForceCount (a ++ b) = leafForceCount a + leafForceCount b := by
  simp [leafForceCount, List.filter_append]

theorem leafForceCount_theta_cons (d : ℚ) (a : List Event) :
    leafForceCount (Event.theta d :: a) = leafForceCount a := by
  simp [leafForceCount, List.filter_cons, Event.isLeafForce]

theorem leafForceCount_eventsOf_mono (sqrt : ℚ → ℚ) (p : Nat) (epsilon Theta1 Theta2 : ℚ)
    (h : Theta1 ≤ Theta2) (ps : Store) :
    ∀ t : Node, leafForceCount (eventsOf sqrt p epsilon Theta2 ps t)
      ≤ leafForceCount (eventsOf sqrt p epsilon Theta1 ps t) := by
  intro t
  induction t with
  | leaf d => simp [eventsOf]
  | branch d c0 c1 c2 c3 c4 c5 c6 c7 ih0 ih1 ih2 ih3 ih4 ih5 ih6 ih7 =>
    unfold eventsOf
    by_cases h2 : thetaLess d.side (Vec3.norm sqrt (Vec3.sub (ps.at p).pos d.com)) Theta2 = true
    · simp [h2, leafForceCount, List.filter_cons, Event.isLeafForce]
    · have h1 : ¬ thetaLess d.side (Vec3.norm sqrt (Vec3.sub (ps.at p).pos d.com)) Theta1
          = true := fun h1 => h2 (thetaLess_mono _ _ _ _ h h1)
      simp only [h1, h2, Bool.false_eq_true, if_false, leafForceCount_theta_cons,
        leafForceCount_append]
      omega

/-- C14: for every tree, every particle `p` and all thresholds `Theta1 ≤ Theta2`, the
number of leaf-level pairwise force evaluations performed by `sumExternalForces`
with `Theta1` is at least the number performed with `Theta2`. -/
theorem C14_leaf_evaluations_antitone_in_theta (sqrt : ℚ → ℚ) (p : Nat)
    (epsilon G Theta1 Theta2 : ℚ) (h : Theta1 ≤ Theta2) (t : Node) (ps : Store) :
    leafForceCount (divisions sqrt p epsilon G Theta2 t ps)
      ≤ leafForceCount (divisions sqrt p epsilon G Theta1 t ps) := by
  rw [divisions_eq, divisions_eq]
  exact leafForceCount_eventsOf_mono sqrt p epsilon Theta1 Theta2 h ps t

/-- C14 (witness): the two-body tree with `Theta1 = 0` (four leaf evaluations) and
`Theta2 = 3` (the root is accepted, no leaf evaluation). -/
theorem C14_leaf_evaluations_antitone_in_theta_witness :
    (0 : ℚ) ≤ 3
      ∧ leafForceCount (divisions qsqrt 0 0 1 0 (builtTree 1 twoBody) twoBody) = 4
      ∧ leafForceCount (divisions qsqrt 0 0 1 3 (builtTree 1 twoBody) twoBody) = 0
      ∧ leafForceCount (divisions qsqrt 0 0 1 3 (builtTree 1 twoBody) twoBody)
          ≤ leafForceCount (divisions qsqrt 0 0 1 0 (builtTree 1 twoBody) twoBody) :=
  ⟨by norm_num, by decide!, by decide!,
    C14_leaf_evaluations_antitone_in_theta qsqrt 0 0 1 0 3 (by norm_num)
      (builtTree 1 twoBody) twoBody⟩

/-! ### C19: a non-positive threshold opens every node -/

theorem eventsOf_no_nodeForce (sqrt : ℚ → ℚ) (hsq : ∀ x, 0 ≤ sqrt x) (p : Nat)
    (epsilon Theta : ℚ) (hT : Theta ≤ 0) (ps : Store) :
    ∀ t : Node, t.sidesNonneg →
      ∀ e ∈ eventsOf sqrt p epsilon Theta ps t, e.isNodeForce = false := by
  intro t
  induction t with
  | leaf d =>
    intro _ e he
    unfold eventsOf at he
    cases hd : d.particles with
    | nil => simp [hd] at he
    | cons q rest =>
      by_cases hq : q = p
      · simp [hd, hq] at he
      · simp only [hd, hq, if_false, List.mem_singleton] at he
        rw [he]
        rfl
  | branch d c0 c1 c2 c3 c4 c5 c6 c7 ih0 ih1 ih2 ih3 ih4 ih5 ih6 ih7 =>
    intro hs e he
    obtain ⟨hd, h0, h1, h2, h3, h4, h5, h6, h7⟩ := hs
    have hθ : thetaLess d.side (Vec3.norm sqrt (Vec3.sub (ps.at p).pos d.com)) Theta = false :=
      thetaLess_false _ _ _ hd (hsq _) hT
    unfold eventsOf at he
    simp only [hθ, Bool.false_eq_true, if_false, List.mem_cons, List.mem_append] at he
    rcases he with he | ((((((he | he) | he) | he) | he) | he) | he) | he
    · rw [he]; rfl
    · exact ih0 h0 e he
    · exact ih1 h1 e he
    · exact ih2 h2 e he
    · exact ih3 h3 e he
    · exact ih4 h4 e he
    · exact ih5 h5 e he
    · exact ih6 h6 e he
    · exact ih7 h7 e he

theorem leafForceCount_eventsOf (sqrt : ℚ → ℚ) (hsq : ∀ x, 0 ≤ sqrt x) (p : Nat)
    (epsilon G Theta : ℚ) (hT : Theta ≤ 0) (ps : Store) :
    ∀ t : Node, t.sidesNonneg →
      leafForceCount (eventsOf sqrt p epsilon Theta ps t)
        = (leafContribs sqrt epsilon G ps p t).length := by
  intro t
  induction t with
  | leaf d =>
    intro _
    unfold eventsOf
    cases hd : d.particles with
    | nil => simp [leafContribs, Node.leafHeads, Node.leaves, hd, leafForceCount]
    | cons q rest =>
      by_cases hq : q = p
      · simp [leafContribs, Node.leafHeads, Node.leaves, hd, hq, leafForceCount]
      · simp [leafContribs, Node.leafHeads, Node.leaves, hd, hq, leafForceCount,
          Event.isLeafForce]
  | branch d c0 c1 c2 c3 c4 c5 c6 c7 ih0 ih1 ih2 ih3 ih4 ih5 ih6 ih7 =>
    intro hs
    obtain ⟨hd, h0, h1, h2, h3, h4, h5, h6, h7⟩ := hs
    have hθ : thetaLess d.side (Vec3.norm sqrt (Vec3.sub (ps.at p).pos d.com)) Theta = false :=
      thetaLess_false _ _ _ hd (hsq _) hT
    unfold eventsOf
    simp only [hθ, Bool.false_eq_true, if_false, leafForceCount_theta_cons,
      leafForceCount_append, leafContribs_branch, List.length_append,
      ih0 h0, ih1 h1, ih2 h2, ih3 h3, ih4 h4, ih5 h5, ih6 h6, ih7 h7]

/-! ### C20: the divisions of a traversal -/

theorem eventsOf_divisors_pos (sqrt : ℚ → ℚ) (p : Nat) (epsilon Theta : ℚ)
    (heps : epsilon ≠ 0) (ps : Store) :
    ∀ t : Node, ∀ e ∈ eventsOf sqrt p epsilon Theta ps t,
      ∀ F, (e = Event.leafForce F ∨ e = Event.nodeForce F) → 0 < F := by
  intro t
  induction t with
  | leaf d =>
    intro e he F hF
    unfold eventsOf at he
    cases hd : d.particles with
    | nil => simp [hd] at he
    | cons q rest =>
      by_cases hq : q = p
      · simp [hd, hq] at he
      · simp only [hd, hq, if_false, List.mem_singleton] at he
        rw [he] at hF
        rcases hF with hF | hF
        · injection hF with hF
          rw [← hF]
          exact forceDivisor_pos sqrt epsilon heps _
        · cases hF
  | branch d c0 c1 c2 c3 c4 c5 c6 c7 ih0 ih1 ih2 ih3 ih4 ih5 ih6 ih7 =>
    intro e he F hF
    unfold eventsOf at he
    by_cases hθ : thetaLess d.side (Vec3.norm sqrt (Vec3.sub (ps.at p).pos d.com)) Theta = true
    · simp only [hθ, if_true, List.mem_cons, List.mem_singleton, List.mem_nil_iff,
        or_false] at he
      rcases he with he | he
      · rw [he] at hF
        rcases hF with hF | hF <;> cases hF
      · rw [he] at hF
        rcases hF with hF | hF
        · cases hF
        · injection hF with hF
          rw [← hF]
          exact forceDivisor_pos sqrt epsilon heps _
    · simp only [hθ, Bool.false_eq_true, if_false, List.mem_cons, List.mem_append] at he
      rcases he with he | ((((((he | he) | he) | he) | he) | he) | he) | he
      · rw [he] at hF
        rcases hF with hF | hF <;> cases hF
      · exact ih0 e he F hF
      · exact ih1 e he F hF
      · exact ih2 e he F hF
      · exact ih3 e he F hF
      · exact ih4 e he F hF
      · exact ih5 e he F hF
      · exact ih6 e he F hF
      · exact ih7 e he F hF

theorem eventsOf_branch_head (sqrt : ℚ → ℚ) (p : Nat) (epsilon Theta : ℚ) (ps : Store)
    (d : NodeData) (c0 c1 c2 c3 c4 c5 c6 c7 : Node) :
    (eventsOf sqrt p epsilon Theta ps (Node.branch d c0 c1 c2 c3 c4 c5 c6 c7)).head?
      = some (Event.theta (Vec3.norm sqrt (Vec3.sub (ps.at p).pos d.com))) := by
  unfold eventsOf
  split <;> rfl

/-- A successful build of a node that owns more than one particle returns a node
with children and the same attributes. -/
theorem buildTree_branch (ps : Store) (fuel : Nat) (n t : Node)
    (h : buildTree ps fuel n = .ok t) (h2 : 1 < n.numParticles) :
    ∃ b0 b1 b2 b3 b4 b5 b6 b7, t = Node.branch n.data b0 b1 b2 b3 b4 b5 b6 b7 := by
  refine buildTree_induct ps (fun n t => 1 < n.numParticles →
    ∃ b0 b1 b2 b3 b4 b5 b6 b7, t = Node.branch n.data b0 b1 b2 b3 b4 b5 b6 b7) ?_ ?_
    fuel n t h h2
  · intro n h1 h2
    omega
  · intro n b0 b1 b2 b3 b4 b5 b6 b7 _ _ _ _ _ _ _ _ _ _
    exact ⟨b0, b1, b2, b3, b4, b5, b6, b7, rfl⟩

theorem norm_sub_self (sqrt : ℚ → ℚ) (h0 : sqrt 0 = 0) (x : Vec3) :
    Vec3.norm sqrt (Vec3.sub x x) = 0 := by
  simp [Vec3.norm, Vec3.sub, Vec3.squaredNorm, h0]

/-- C20 (counterexample): for two unit masses at `(1,0,0)`, `epsilon = 0.1`, `G = 20`
and `Theta = 0.9`, the build returns a tree and the traversal for the first
particle divides by the distance `0` at the root and at the four children that
own both particles. -/
theorem C20_counterexample_zero_distance :
    frameTree 2 coincidentPair = .ok (builtTree 2 coincidentPair)
      ∧ (0 : ℚ) < 1 / 10
      ∧ divisions qsqrt 0 (1 / 10) 20 (9 / 10) (builtTree 2 coincidentPair) coincidentPair
          = [Event.theta 0, Event.theta 0, Event.theta 0, Event.theta 0, Event.theta 0] := by
  decide!

/-- C20 (amended): for every `epsilon` whose square is positive, every tree, store
and particle `p`, no softened denominator `Fnum` is zero at any force division
that `sumExternalForces` performs.  The division `theta = side / d` is not guarded:
at a node with children and a non-negative side whose centre of mass equals the
position of `p` (the root built over coincident particles when its aggregated
centre of mass is exactly their position, or any particle that sits at the
centre of mass), `d` is `0`, the comparison `theta < Theta` is false and the node is
opened: the record is the division by `0` followed by the divisions of the 8
children, which are traversed in order. -/
theorem C20_softened_divisor_nonzero_distance_unguarded (sqrt : ℚ → ℚ) (h0 : sqrt 0 = 0)
    (epsilon G Theta : ℚ) (heps : 0 < epsilon ^ 2) (t : Node) (ps : Store) (p : Nat) :
    (∀ e ∈ divisions sqrt p epsilon G Theta t ps,
        ∀ F, (e = Event.leafForce F ∨ e = Event.nodeForce F) → F ≠ 0)
      ∧ (t.hasChildren = true → 0 ≤ t.side → t.com = (ps.at p).pos →
          thetaLess t.side (Vec3.norm sqrt (Vec3.sub (ps.at p).pos t.com)) Theta = false
            ∧ divisions sqrt p epsilon G Theta t ps
                = Event.theta 0
                  :: (t.children.map (fun c => divisions sqrt p epsilon G Theta c ps)).flatten
            ∧ sumExternalForces sqrt p epsilon G Theta t ps
                = t.children.foldl (fun s c => sumExternalForces sqrt p epsilon G Theta c s) ps)
    := by
  have hne : epsilon ≠ 0 := by
    intro h
    rw [h] at heps
    norm_num at heps
  constructor
  · intro e he F hF
    rw [divisions_eq] at he
    exact ne_of_gt (eventsOf_divisors_pos sqrt p epsilon Theta hne ps t e he F hF)
  · intro hc hs hcom
    cases t with
    | leaf d => simp [Node.hasChildren] at hc
    | branch d c0 c1 c2 c3 c4 c5 c6 c7 =>
      have hcom2 : d.com = (ps.at p).pos := hcom
      have hs2 : 0 ≤ d.side := hs
      have hn : Vec3.norm sqrt (Vec3.sub (ps.at p).pos d.com) = 0 := by
        rw [hcom2]
        exact norm_sub_self sqrt h0 _
      have hθ : thetaLess d.side (Vec3.norm sqrt (Vec3.sub (ps.at p).pos d.com)) Theta
          = false := by
        rw [hn]
        simp [thetaLess, hs2]
      refine ⟨hθ, ?_, ?_⟩
      · simp only [divisions_eq, Node.children, List.map_cons, List.map_nil, List.flatten,
          List.append_nil]
        rw [eventsOf]
        simp only [hθ, Bool.false_eq_true, if_false, List.append_assoc]
        rw [hn]
      · rw [sumExternalForces]
        simp only [hθ, Bool.false_eq_true, if_false, Node.children, List.foldl_cons,
          List.foldl_nil]

/-- C20 (witness): with `epsilon = 0.1`, the particle at `(1,1,1)` of `centredTriple`, which
sits at the centre of mass of the root (one division by `0`, then two leaf
evaluations with divisor `49.01`), and the first of two unit masses at
`(1,0,0)`. -/
theorem C20_softened_divisor_nonzero_distance_unguarded_witness :
    qsqrt 0 = 0 ∧ (0 : ℚ) < (1 / 10) ^ 2
      ∧ (frameTree 1 centredTriple = .ok (builtTree 1 centredTriple)
        ∧ (builtTree 1 centredTriple).hasChildren = true
        ∧ 0 ≤ (builtTree 1 centredTriple).side
        ∧ (builtTree 1 centredTriple).com = (centredTriple.at 0).pos)
      ∧ divisions qsqrt 0 (1 / 10) 20 (9 / 10) (builtTree 1 centredTriple) centredTriple
          = [Event.theta 0, Event.leafForce (4901 / 100), Event.leafForce (4901 / 100)]
      ∧ ((∀ e ∈ divisions qsqrt 0 (1 / 10) 20 (9 / 10) (builtTree 1 centredTriple) centredTriple,
            ∀ F, (e = Event.leafForce F ∨ e = Event.nodeForce F) → F ≠ 0)
        ∧ thetaLess (builtTree 1 centredTriple).side
            (Vec3.norm qsqrt (Vec3.sub (centredTriple.at 0).pos
              (builtTree 1 centredTriple).com)) (9 / 10) = false)
      ∧ ((builtTree 2 coincidentPair).com = (coincidentPair.at 0).pos
        ∧ thetaLess (builtTree 2 coincidentPair).side
            (Vec3.norm qsqrt (Vec3.sub (coincidentPair.at 0).pos
              (builtTree 2 coincidentPair).com)) (9 / 10) = false) :=
  ⟨by decide!, by norm_num, by decide!, by decide!,
    ⟨(C20_softened_divisor_nonzero_distance_unguarded qsqrt (by decide!) (1 / 10) 20 (9 / 10)
        (by norm_num) (builtTree 1 centredTriple) centredTriple 0).1,
      ((C20_softened_divisor_nonzero_distance_unguarded qsqrt (by decide!) (1 / 10) 20 (9 / 10)
        (by norm_num) (builtTree 1 centredTriple) centredTriple 0).2 (by decide!) (by decide!)
        (by decide!)).1⟩,
    ⟨by decide!,
      ((C20_softened_divisor_nonzero_distance_unguarded qsqrt (by decide!) (1 / 10) 20 (9 / 10)
        (by norm_num) (builtTree 2 coincidentPair) coincidentPair 0).2 (by decide!) (by decide!)
        (by decide!)).1⟩⟩

/-! ### C11: the gravity loop -/

theorem gravityStep_length (sqrt : ℚ → ℚ) (epsilon G Theta dt : ℚ) (root : Node) (s : Store)
    (j : Nat) : (gravityStep sqrt epsilon G Theta dt root s j).length = s.length := by
  obtain ⟨Fs, e⟩ := sumExternalForces_addForces sqrt j epsilon G Theta root s
  simp only [gravityStep, e, length_modify, addForces_length]

theorem gravityStep_at_ne (sqrt : ℚ → ℚ) (epsilon G Theta dt : ℚ) (root : Node) (s : Store)
    (j i : Nat) (h : i ≠ j) : (gravityStep sqrt epsilon G Theta dt root s j).at i = s.at i := by
  obtain ⟨Fs, e⟩ := sumExternalForces_addForces sqrt j epsilon G Theta root s
  simp only [gravityStep, e, at_modify, h, and_false, if_false]
  exact addForces_other s j i Fs h

theorem gravityStep_at_same (sqrt : ℚ → ℚ) (epsilon G Theta dt : ℚ) (root : Node) (s : Store)
    (j : Nat) (h : j < s.length) :
    (gravityStep sqrt epsilon G Theta dt root s j).at j
      = ((⟨(s.at j).mass, (s.at j).prevPos, (s.at j).pos, (s.at j).vel,
            forceOn sqrt epsilon G Theta root s j⟩ : Particle).step false dt).setExtForce
          Vec3.zero := by
  obtain ⟨Fs, e⟩ := sumExternalForces_addForces sqrt j epsilon G Theta root s
  have h1 : j < (s.addForces j Fs).length := by rw [addForces_length]; exact h
  have h2 : j < ((s.addForces j Fs).modify j (fun a => a.step false dt)).length := by
    rw [length_modify]; exact h1
  have h3 : (s.addForces j Fs).at j
      = ⟨(s.at j).mass, (s.at j).prevPos, (s.at j).pos, (s.at j).vel,
          Fs.foldl Vec3.add (s.at j).extForce⟩ := by
    simp only [Store.addForces, at_modify, h, true_and, if_true]
  simp only [gravityStep, forceOn, e, at_modify, h1, h2, true_and, if_true, h3]

theorem loopPrefix_succ (sqrt : ℚ → ℚ) (epsilon G Theta dt : ℚ) (root : Node) (ps : Store)
    (j : Nat) :
    loopPrefix sqrt epsilon G Theta dt root ps (j + 1)
      = gravityStep sqrt epsilon G Theta dt root (loopPrefix sqrt epsilon G Theta dt root ps j) j := by
  simp [loopPrefix, List.range_succ, List.foldl_append]

theorem loopPrefix_length (sqrt : ℚ → ℚ) (epsilon G Theta dt : ℚ) (root : Node) (ps : Store)
    (j : Nat) : (loopPrefix sqrt epsilon G Theta dt root ps j).length = ps.length := by
  induction j with
  | zero => rfl
  | succ k ih => rw [loopPrefix_succ, gravityStep_length, ih]

/-- When the loop reaches `j`, the particles from `j` on are as at the start of the frame. -/
theorem loopPrefix_at_ge (sqrt : ℚ → ℚ) (epsilon G Theta dt : ℚ) (root : Node) (ps : Store)
    (j i : Nat) (h : j ≤ i) : (loopPrefix sqrt epsilon G Theta dt root ps j).at i = ps.at i := by
  induction j with
  | zero => rfl
  | succ k ih =>
    rw [loopPrefix_succ, gravityStep_at_ne _ _ _ _ _ _ _ _ _ (by omega)]
    exact ih (by omega)

/-- Once the loop has passed `i`, the particle `i` is no longer changed. -/
theorem loopPrefix_at_lt (sqrt : ℚ → ℚ) (epsilon G Theta dt : ℚ) (root : Node) (ps : Store)
    (i : Nat) : ∀ k, (loopPrefix sqrt epsilon G Theta dt root ps (i + 1 + k)).at i
      = (loopPrefix sqrt epsilon G Theta dt root ps (i + 1)).at i := by
  intro k
  induction k with
  | zero => rfl
  | succ k ih =>
    have e : i + 1 + (k + 1) = (i + 1 + k) + 1 := by omega
    rw [e, loopPrefix_succ, gravityStep_at_ne _ _ _ _ _ _ _ _ _ (by omega)]
    exact ih

theorem loopPrefix_at_stable (sqrt : ℚ → ℚ) (epsilon G Theta dt : ℚ) (root : Node) (ps : Store)
    (i j m : Nat) (h1 : i < j) (h2 : j ≤ m) :
    (loopPrefix sqrt epsilon G Theta dt root ps j).at i
      = (loopPrefix sqrt epsilon G Theta dt root ps m).at i := by
  have ej : j = i + 1 + (j - (i + 1)) := by omega
  have em : m = i + 1 + (m - (i + 1)) := by omega
  rw [ej, em, loopPrefix_at_lt, loopPrefix_at_lt]

theorem frameBody_eq (sqrt : ℚ → ℚ) (fuel : Nat) (epsilon G Theta dt : ℚ) (ps : Store)
    (root : Node) (h : frameTree fuel ps = .ok root) :
    frameBody sqrt fuel epsilon G Theta dt ps
      = .ok (loopPrefix sqrt epsilon G Theta dt root ps ps.length) := by
  simp only [frameBody, h, loopPrefix]

/-- C11 (counterexample): in the two-body scenario with `dt = 0.1` the second
particle is integrated with the force `(-200/99,0,0)`, evaluated after the first
particle has been stepped, whereas the force evaluated with both particles at
their start-of-frame positions is `(-2,0,0)`; the frame body differs from the
two-phase frame. -/
theorem C11_counterexample_second_particle_sees_moved_first :
    frameTree 1 twoBody = .ok (builtTree 1 twoBody)
      ∧ forceOn qsqrt 0 1 0 (builtTree 1 twoBody)
          (loopPrefix qsqrt 0 1 0 (1 / 10) (builtTree 1 twoBody) twoBody 1) 1
        = ⟨-200 / 99, 0, 0⟩
      ∧ forceOn qsqrt 0 1 0 (builtTree 1 twoBody) twoBody 1 = ⟨-2, 0, 0⟩
      ∧ frameBody qsqrt 1 0 1 0 (1 / 10) twoBody
          ≠ twoPhaseFrameBody qsqrt 1 0 1 0 (1 / 10) twoBody := by
  decide!

/-- C11 (amended): in one execution of the frame-loop body, the particle `j` is
integrated with the force obtained by evaluating `sumExternalForces` for `j` on the
store in which the particles before `j` already have their end-of-frame state
(stepped and reset) and the particles from `j` on still have their start-of-frame
state; for `j = 0` this is the start-of-frame store. -/
theorem C11_force_evaluated_after_earlier_particles_stepped (sqrt : ℚ → ℚ) (fuel : Nat)
    (epsilon G Theta dt : ℚ) (ps : Store) (root : Node) (ht : frameTree fuel ps = .ok root)
    (j : Nat) (hj : j < ps.length) :
    frameBody sqrt fuel epsilon G Theta dt ps
        = .ok (loopPrefix sqrt epsilon G Theta dt root ps ps.length)
      ∧ loopPrefix sqrt epsilon G Theta dt root ps 0 = ps
      ∧ (∀ i, j ≤ i → (loopPrefix sqrt epsilon G Theta dt root ps j).at i = ps.at i)
      ∧ (∀ i, i < j → (loopPrefix sqrt epsilon G Theta dt root ps j).at i
          = (loopPrefix sqrt epsilon G Theta dt root ps ps.length).at i)
      ∧ (loopPrefix sqrt epsilon G Theta dt root ps ps.length).at j
          = ((⟨(ps.at j).mass, (ps.at j).prevPos, (ps.at j).pos, (ps.at j).vel,
                forceOn sqrt epsilon G Theta root
                  (loopPrefix sqrt epsilon G Theta dt root ps j) j⟩ : Particle).step false
              dt).setExtForce Vec3.zero := by
  refine ⟨frameBody_eq sqrt fuel epsilon G Theta dt ps root ht, rfl,
    fun i hi => loopPrefix_at_ge sqrt epsilon G Theta dt root ps j i hi,
    fun i hi => loopPrefix_at_stable sqrt epsilon G Theta dt root ps i j ps.length hi
      (le_of_lt hj), ?_⟩
  rw [← loopPrefix_at_stable sqrt epsilon G Theta dt root ps j (j + 1) ps.length
    (Nat.lt_succ_self j) hj, loopPrefix_succ,
    gravityStep_at_same _ _ _ _ _ _ _ _ (by rw [loopPrefix_length]; exact hj),
    loopPrefix_at_ge sqrt epsilon G Theta dt root ps j j (le_refl j)]

/-- C11 (witness): the second particle of the two-body scenario with `dt = 0.1`. -/
theorem C11_force_evaluated_after_earlier_particles_stepped_witness :
    frameTree 1 twoBody = .ok (builtTree 1 twoBody) ∧ 1 < twoBody.length
      ∧ (loopPrefix qsqrt 0 1 0 (1 / 10) (builtTree 1 twoBody) twoBody twoBody.length).at 1
          = ((⟨(twoBody.at 1).mass, (twoBody.at 1).prevPos, (twoBody.at 1).pos,
                (twoBody.at 1).vel,
                forceOn qsqrt 0 1 0 (builtTree 1 twoBody)
                  (loopPrefix qsqrt 0 1 0 (1 / 10) (builtTree 1 twoBody) twoBody 1) 1⟩ :
              Particle).step false (1 / 10)).setExtForce Vec3.zero :=
  ⟨by decide!, by decide!,
    (C11_force_evaluated_after_earlier_particles_stepped qsqrt 1 0 1 0 (1 / 10) twoBody
      (builtTree 1 twoBody) (by decide!) 1 (by decide!)).2.2.2.2⟩

/-! ### C12: creation of a particle -/

/-- C12 (counterexample): the constructor called with mass `-1` (and with mass `0`)
returns a particle that has this non-positive mass. -/
theorem C12_counterexample_negative_mass_accepted :
    (Particle.new (-1) ⟨0, 0, 0⟩ ⟨1, 0, 0⟩ (1 / 10)).mass = -1
      ∧ (Particle.new (-1) ⟨0, 0, 0⟩ ⟨1, 0, 0⟩ (1 / 10)).mass ≤ 0
      ∧ (Particle.new 0 ⟨0, 0, 0⟩ ⟨1, 0, 0⟩ (1 / 10)).mass = 0 := by
  decide!

/-- C12 (amended): for every mass, non-positive ones included, and every position,
velocity and `dt`, `Particle(mass, prevPos, vel, dt)` returns a particle with exactly
this mass, `prevPos` and `vel`, with `pos = prevPos + vel * dt` and a zero force
accumulator: the constructor validates nothing. -/
theorem C12_constructor_accepts_every_mass (mass : ℚ) (prevPos vel : Vec3) (dt : ℚ) :
    (Particle.new mass prevPos vel dt).mass = mass
      ∧ (Particle.new mass prevPos vel dt).prevPos = prevPos
      ∧ (Particle.new mass prevPos vel dt).vel = vel
      ∧ (Particle.new mass prevPos vel dt).pos
          = ⟨prevPos.x + vel.x * dt, prevPos.y + vel.y * dt, prevPos.z + vel.z * dt⟩
      ∧ (Particle.new mass prevPos vel dt).extForce = ⟨0, 0, 0⟩ := by
  simp [Particle.new, Vec3.add, Vec3.smul, Vec3.zero, mul_comm]

/-! ### C13: the empty particle set -/

/-- C13 (counterexample): with the parameters of `main` and no particle, the frame
body stops with a failed assertion. -/
theorem C13_counterexample_empty_frame_asserts :
    ([] : Store).length = 0
      ∧ frameBody qsqrt 1 (1 / 10) 20 (9 / 10) (1 / 10) [] = .error Err.assertion := by
  decide!

/-- C13 (amended): for an empty particle set the frame body does not complete: the
root owns no particle, `updateMassAttribs` on the root fails its assertion
`numParticles_ > 0`, and the frame stops there, before `buildTree`, force
evaluation and integration, whatever the parameters. -/
theorem C13_empty_frame_fails_root_assertion (sqrt : ℚ → ℚ) (fuel : Nat)
    (epsilon G Theta dt : ℚ) :
    (rootOf []).numParticles = 0
      ∧ (rootOf []).updateMassAttribs [] = .error Err.assertion
      ∧ frameTree fuel [] = .error Err.assertion
      ∧ frameBody sqrt fuel epsilon G Theta dt [] = .error Err.assertion := by
  have h1 : (rootOf []).numParticles = 0 := by
    simp [rootOf_eq, Node.numParticles, Node.data]
  refine ⟨h1, ?_, frameTree_nil fuel, ?_⟩
  · simp [Node.updateMassAttribs, h1]
  · simp [frameBody, frameTree_nil]

/-! ### C15: the children of a subdivided node -/

theorem subdivide_children (ps : Store) (n : Node) (h : 1 < n.numParticles) :
    ∃ t, n.subdivide ps = .ok t
      ∧ t.children = (Node.childCenters (n.side / 2 / 2)).map (kid ps n) :=
  ⟨_, subdivide_eq ps n h, rfl⟩

theorem kid_center (ps : Store) (n : Node) (c : Vec3) : (kid ps n c).center = c :=
  childOf_center ps n.particles c (n.side / 2)

/-- The children created by `subdivide` are centred at `(±s,±s,±s)` with
`s = side / 4`, whatever the centre of the node, and have side `side / 2`. -/
theorem subdivide_child_centers (ps : Store) (n : Node) (h : 1 < n.numParticles) :
    ∃ t, n.subdivide ps = .ok t
      ∧ t.children.map Node.center = Node.childCenters (n.side / 4)
      ∧ t.children.map Node.side = List.replicate 8 (n.side / 2) := by
  have e : n.side / 2 / 2 = n.side / 4 := by ring
  refine ⟨_, subdivide_eq ps n h, ?_, ?_⟩
  · simp only [Node.children, List.map_cons, List.map_nil, kid_center, Node.childCenters, e]
  · simp only [Node.children, List.map_cons, List.map_nil, kid_side]
    rfl

/-- C15 (evaluation at the failing input): the node with centre `(3/2,3/2,3/2)`
and side `3` that owns the particles at `(3,3,3)` and `(2,2,2)` is subdivided into
8 children of side `3/2` whose centres are `(±3/4,±3/4,±3/4)`; the first of them
is at `(-3/4,-3/4,3/4)` and not at the centre of the node offset by a quarter of the
side, `(3/4,3/4,9/4)`. -/
theorem C15_child_centres_ignore_parent_centre :
    1 < offCentreNode.numParticles
      ∧ (offCentreNode.subdivide diagonalPair).map (fun t => t.children.map Node.center)
          = .ok [⟨-3 / 4, -3 / 4, 3 / 4⟩, ⟨3 / 4, -3 / 4, 3 / 4⟩, ⟨-3 / 4, -3 / 4, -3 / 4⟩,
              ⟨3 / 4, -3 / 4, -3 / 4⟩, ⟨-3 / 4, 3 / 4, 3 / 4⟩, ⟨3 / 4, 3 / 4, 3 / 4⟩,
              ⟨-3 / 4, 3 / 4, -3 / 4⟩, ⟨3 / 4, 3 / 4, -3 / 4⟩]
      ∧ (offCentreNode.subdivide diagonalPair).map (fun t => t.children.map Node.side)
          = .ok (List.replicate 8 (3 / 2))
      ∧ (offCentreNode.subdivide diagonalPair).map
            (fun t => t.children.map (fun c => c.particles))
          = .ok (List.replicate 8 [])
      ∧ Vec3.add offCentreNode.center ⟨-(offCentreNode.side / 4), -(offCentreNode.side / 4),
            offCentreNode.side / 4⟩ = ⟨3 / 4, 3 / 4, 9 / 4⟩ := by
  decide!

/-! ### C16: assignment of a particle to the children -/

theorem kid_inBounds (ps : Store) (n : Node) (c pt : Vec3) :
    (kid ps n c).inBounds pt = (Node.new c (n.side / 2)).inBounds pt := by
  rw [kid, inBounds_leaf, childOf_center, childOf_side]

theorem childCenters_components (s : ℚ) (v : Vec3) (hv : v ∈ Node.childCenters s) :
    (v.x = s ∨ v.x = -s) ∧ (v.y = s ∨ v.y = -s) ∧ (v.z = s ∨ v.z = -s) := by
  simp only [Node.childCenters, List.mem_cons, List.mem_singleton, List.mem_nil_iff,
    or_false] at hv
  rcases hv with h | h | h | h | h | h | h | h <;> subst h <;> simp

/-- A point strictly inside one child cube lies in the closed cube of no other child. -/
theorem interior_unique (s : ℚ) (v w pt : Vec3)
    (hv : (v.x = s ∨ v.x = -s) ∧ (v.y = s ∨ v.y = -s) ∧ (v.z = s ∨ v.z = -s))
    (hw : (w.x = s ∨ w.x = -s) ∧ (w.y = s ∨ w.y = -s) ∧ (w.z = s ∨ w.z = -s))
    (hint : (Node.new v (2 * s)).inInterior pt = true)
    (hin : (Node.new w (2 * s)).inBounds pt = true) : w = v := by
  simp only [Node.inInterior, Node.inBounds, Node.new, Node.center, Node.side, Node.data,
    Bool.and_eq_true, decide_eq_true_eq] at hint hin
  obtain ⟨⟨⟨⟨⟨i1, i2⟩, i3⟩, i4⟩, i5⟩, i6⟩ := hint
  obtain ⟨⟨⟨x1, x2⟩, y1, y2⟩, z1, z2⟩ := hin
  obtain ⟨vx, vy, vz⟩ := hv
  obtain ⟨wx, wy, wz⟩ := hw
  have ex : w.x = v.x := by
    rcases vx with a | a <;> rcases wx with b | b <;> rw [a] at i1 i2 <;> rw [b] at x1 x2 <;>
      first
      | (exfalso; linarith)
      | (rw [a, b])
  have ey : w.y = v.y := by
    rcases vy with a | a <;> rcases wy with b | b <;> rw [a] at i3 i4 <;> rw [b] at y1 y2 <;>
      first
      | (exfalso; linarith)
      | (rw [a, b])
  have ez : w.z = v.z := by
    rcases vz with a | a <;> rcases wz with b | b <;> rw [a] at i5 i6 <;> rw [b] at z1 z2 <;>
      first
      | (exfalso; linarith)
      | (rw [a, b])
  cases v
  cases w
  simp only [Vec3.mk.injEq]
  exact ⟨ex, ey, ez⟩

/-- C16 (counterexample): subdividing the root of the two-body scenario assigns
the particle at `(-1,0,0)`, which lies on the shared faces `y = 0` and `z = 0`, to
four of the eight children. -/
theorem C16_counterexample_particle_in_four_children :
    ((frameRoot twoBody).subdivide twoBody).map
        (fun t => (t.children.filter (fun c => decide (0 ∈ c.particles))).length) = .ok 4
      ∧ 0 ∈ (frameRoot twoBody).particles := by
  decide!

/-- C16 (amended): `subdivide` gives each of the 8 children exactly the particles of
the node that pass the child's inclusive `inBounds` test; a particle whose
position is strictly inside the cube of one child is assigned to that child
only, and a particle on a face shared by sibling cubes is assigned to every one
of them. -/
theorem C16_children_take_particles_by_inclusive_test (ps : Store) (n : Node)
    (h : 1 < n.numParticles) :
    ∃ t, n.subdivide ps = .ok t ∧ t.children.length = 8
      ∧ (∀ c ∈ t.children, ∀ i,
          i ∈ c.particles ↔ (i ∈ n.particles ∧ c.inBounds (ps.at i).pos = true))
      ∧ (∀ c ∈ t.children, ∀ i ∈ n.particles, c.inInterior (ps.at i).pos = true →
          i ∈ c.particles ∧ ∀ c1 ∈ t.children, i ∈ c1.particles → c1 = c) := by
  have hch : ∀ c ∈ (Node.childCenters (n.side / 2 / 2)).map (kid ps n),
      ∃ v ∈ Node.childCenters (n.side / 2 / 2), c = kid ps n v := by
    intro c hc
    obtain ⟨v, hv, e⟩ := List.mem_map.mp hc
    exact ⟨v, hv, e.symm⟩
  have hmem : ∀ (v : Vec3) (i : Nat), i ∈ (kid ps n v).particles
      ↔ (i ∈ n.particles ∧ (kid ps n v).inBounds (ps.at i).pos = true) := by
    intro v i
    rw [kid_particles, List.mem_filter, kid_inBounds]
  have e2 : n.side / 2 = 2 * (n.side / 2 / 2) := by ring
  refine ⟨_, subdivide_eq ps n h, rfl, ?_, ?_⟩
  · intro c hc i
    obtain ⟨v, _, e⟩ := hch c hc
    rw [e]
    exact hmem v i
  · intro c hc i hi hint
    obtain ⟨v, hv, e⟩ := hch c hc
    rw [e] at hint ⊢
    have hint2 : (Node.new v (2 * (n.side / 2 / 2))).inInterior (ps.at i).pos = true := by
      rw [← e2]
      simpa [Node.inInterior, Node.center, Node.side, Node.data, Node.new, kid, childOf_center,
        childOf_side] using hint
    have hb : (Node.new v (2 * (n.side / 2 / 2))).inBounds (ps.at i).pos = true := by
      simp only [Node.inInterior, Node.inBounds, Node.new, Node.center, Node.side, Node.data,
        Bool.and_eq_true, decide_eq_true_eq] at hint2 ⊢
      obtain ⟨⟨⟨⟨⟨i1, i2⟩, i3⟩, i4⟩, i5⟩, i6⟩ := hint2
      exact ⟨⟨⟨le_of_lt i1, le_of_lt i2⟩, le_of_lt i3, le_of_lt i4⟩, le_of_lt i5, le_of_lt i6⟩
    constructor
    · rw [hmem, kid_inBounds, e2]
      exact ⟨hi, hb⟩
    · intro c1 hc1 hi1
      obtain ⟨w, hw, e1⟩ := hch c1 hc1
      rw [e1] at hi1 ⊢
      have hin : (Node.new w (2 * (n.side / 2 / 2))).inBounds (ps.at i).pos = true := by
        rw [← e2, ← kid_inBounds ps n w]
        exact ((hmem w i).mp hi1).2
      rw [interior_unique (n.side / 2 / 2) v w (ps.at i).pos
        (childCenters_components _ v hv) (childCenters_components _ w hw) hint2 hin]

/-- C16 (witness): the root over a particle at `(1/2,1/2,1/2)`, strictly inside one
child cube, and a particle at `(-1,-1,-1)`. -/
theorem C16_children_take_particles_by_inclusive_test_witness :
    1 < (frameRoot innerPair).numParticles
      ∧ ((frameRoot innerPair).subdivide innerPair).map
          (fun t => t.children.map (fun c => c.inInterior (innerPair.at 0).pos))
        = .ok [false, false, false, false, false, true, false, false]
      ∧ ∃ t, (frameRoot innerPair).subdivide innerPair = .ok t ∧ t.children.length = 8
        ∧ (∀ c ∈ t.children, ∀ i,
            i ∈ c.particles
              ↔ (i ∈ (frameRoot innerPair).particles ∧ c.inBounds (innerPair.at i).pos = true))
        ∧ (∀ c ∈ t.children, ∀ i ∈ (frameRoot innerPair).particles,
            c.inInterior (innerPair.at i).pos = true →
            i ∈ c.particles ∧ ∀ c1 ∈ t.children, i ∈ c1.particles → c1 = c) :=
  ⟨by decide!, by decide!,
    C16_children_take_particles_by_inclusive_test innerPair (frameRoot innerPair) (by decide!)⟩

/-! ### C17: leaves and subdivided nodes -/

theorem mem_nodes_branch (m : Node) (d : NodeData) (c0 c1 c2 c3 c4 c5 c6 c7 : Node) :
    m ∈ (Node.branch d c0 c1 c2 c3 c4 c5 c6 c7).nodes
      ↔ m = Node.branch d c0 c1 c2 c3 c4 c5 c6 c7 ∨ m ∈ c0.nodes ∨ m ∈ c1.nodes
        ∨ m ∈ c2.nodes ∨ m ∈ c3.nodes ∨ m ∈ c4.nodes ∨ m ∈ c5.nodes ∨ m ∈ c6.nodes
        ∨ m ∈ c7.nodes := by
  simp only [Node.nodes, List.mem_cons, List.mem_append, or_assoc]

theorem childOf_aggregated (ps : Store) (parts : List Nat) (c : Vec3) (s : ℚ)
    (h : 0 < (childOf ps parts c s).particles.length) : aggregated ps (childOf ps parts c s) := by
  rw [childOf_particles] at h
  simp only [childOf, h, if_true, aggregated, massLoop_fst, massLoop_snd, zero_add, momentSum,
    Vec3.sum, and_self]

theorem frameRoot_aggregated (ps : Store) : aggregated ps (frameRoot ps).data := ⟨rfl, rfl⟩

theorem buildTree_wellBuilt (ps : Store) (fuel : Nat) (n t : Node)
    (h : buildTree ps fuel n = .ok t) (hleaf : ∃ d, n = Node.leaf d)
    (hagg : 0 < n.numParticles → aggregated ps n.data) : t.wellBuilt ps := by
  refine buildTree_induct ps (fun n t => (∃ d, n = Node.leaf d) →
    (0 < n.numParticles → aggregated ps n.data) → t.wellBuilt ps) ?_ ?_ fuel n t h hleaf hagg
  · intro n h1 hl _
    obtain ⟨d, e⟩ := hl
    subst e
    exact h1
  · intro n b0 b1 b2 b3 b4 b5 b6 b7 h2 p0 p1 p2 p3 p4 p5 p6 p7 _ ha
    have hk : ∀ c : Vec3, (∃ d, kid ps n c = Node.leaf d)
        ∧ (0 < (kid ps n c).numParticles → aggregated ps (kid ps n c).data) :=
      fun c => ⟨⟨_, rfl⟩, fun h0 => childOf_aggregated ps n.particles c (n.side / 2) h0⟩
    exact ⟨h2, ha (by omega), p0 (hk _).1 (hk _).2, p1 (hk _).1 (hk _).2,
      p2 (hk _).1 (hk _).2, p3 (hk _).1 (hk _).2, p4 (hk _).1 (hk _).2, p5 (hk _).1 (hk _).2,
      p6 (hk _).1 (hk _).2, p7 (hk _).1 (hk _).2⟩

theorem wellBuilt_nodes (ps : Store) :
    ∀ t : Node, t.wellBuilt ps → ∀ m ∈ t.nodes,
      (m.hasChildren = true ↔ 1 < m.numParticles)
        ∧ (m.hasChildren = true → aggregated ps m.data) := by
  intro t
  induction t with
  | leaf d =>
    intro h m hm
    simp only [Node.nodes, List.mem_singleton] at hm
    subst hm
    have h1 : d.particles.length ≤ 1 := h
    simp only [Node.hasChildren, Node.numParticles, Node.data, Bool.false_eq_true, false_iff,
      not_lt, false_implies, and_true]
    exact h1
  | branch d c0 c1 c2 c3 c4 c5 c6 c7 ih0 ih1 ih2 ih3 ih4 ih5 ih6 ih7 =>
    intro h m hm
    obtain ⟨h2, ha, w0, w1, w2, w3, w4, w5, w6, w7⟩ := h
    rcases (mem_nodes_branch m d c0 c1 c2 c3 c4 c5 c6 c7).mp hm with
      e | e | e | e | e | e | e | e | e
    · subst e
      simp only [Node.hasChildren, Node.numParticles, Node.data, true_iff, true_implies]
      exact ⟨h2, ha⟩
    · exact ih0 w0 m e
    · exact ih1 w1 m e
    · exact ih2 w2 m e
    · exact ih3 w3 m e
    · exact ih4 w4 m e
    · exact ih5 w5 m e
    · exact ih6 w6 m e
    · exact ih7 w7 m e

/-- C17: in the tree returned by the build of a frame, a node has children if and
only if it owns more than one particle (every leaf owns at most one, every node
with children at least two), and every node with children carries the
aggregated `totalMass` and `com` of the particles it owns. -/
theorem C17_children_iff_more_than_one_particle (fuel : Nat) (ps : Store) (t : Node)
    (ht : frameTree fuel ps = .ok t) :
    ∀ m ∈ t.nodes,
      (m.hasChildren = true ↔ 1 < m.numParticles)
        ∧ (m.hasChildren = false → m.numParticles ≤ 1)
        ∧ (m.hasChildren = true → 2 ≤ m.numParticles ∧ aggregated ps m.data) := by
  have hps : ps ≠ [] := by
    intro h
    subst h
    rw [frameTree_nil] at ht
    cases ht
  rw [frameTree_eq fuel ps hps] at ht
  have hw := buildTree_wellBuilt ps fuel _ t ht ⟨_, rfl⟩ (fun _ => frameRoot_aggregated ps)
  intro m hm
  obtain ⟨h1, h2⟩ := wellBuilt_nodes ps t hw m hm
  refine ⟨h1, ?_, fun hc => ⟨h1.mp hc, h2 hc⟩⟩
  intro hc
  by_contra hn
  have := h1.mpr (by omega)
  rw [hc] at this
  cases this

/-- C17 (witness): the tree of the two-body scenario. -/
theorem C17_children_iff_more_than_one_particle_witness :
    frameTree 1 twoBody = .ok (builtTree 1 twoBody)
      ∧ (builtTree 1 twoBody).nodes.length = 9
      ∧ ∀ m ∈ (builtTree 1 twoBody).nodes,
        (m.hasChildren = true ↔ 1 < m.numParticles)
          ∧ (m.hasChildren = false → m.numParticles ≤ 1)
          ∧ (m.hasChildren = true → 2 ≤ m.numParticles ∧ aggregated twoBody m.data) :=
  ⟨by decide!, by decide!,
    C17_children_iff_more_than_one_particle 1 twoBody (builtTree 1 twoBody) (by decide!)⟩

/-! ### C18: owned particles are in bounds -/

theorem buildTree_ownedInBounds (ps : Store) (fuel : Nat) (n t : Node)
    (h : buildTree ps fuel n = .ok t) (hleaf : ∃ d, n = Node.leaf d)
    (hb : ∀ i ∈ n.particles, n.inBounds (ps.at i).pos = true) : t.ownedInBounds ps := by
  refine buildTree_induct ps (fun n t => (∃ d, n = Node.leaf d) →
    (∀ i ∈ n.particles, n.inBounds (ps.at i).pos = true) → t.ownedInBounds ps) ?_ ?_
    fuel n t h hleaf hb
  · intro n _ hl hb
    obtain ⟨d, e⟩ := hl
    subst e
    exact hb
  · intro n b0 b1 b2 b3 b4 b5 b6 b7 _ p0 p1 p2 p3 p4 p5 p6 p7 hl hb
    have hk : ∀ c : Vec3, (∃ d, kid ps n c = Node.leaf d)
        ∧ (∀ i ∈ (kid ps n c).particles, (kid ps n c).inBounds (ps.at i).pos = true) := by
      intro c
      refine ⟨⟨_, rfl⟩, ?_⟩
      intro i hi
      rw [kid_particles, List.mem_filter] at hi
      rw [kid_inBounds]
      exact hi.2
    obtain ⟨d, e⟩ := hl
    have hb2 : ∀ i ∈ n.data.particles, (Node.leaf n.data).inBounds (ps.at i).pos = true := by
      subst e
      exact hb
    exact ⟨hb2, p0 (hk _).1 (hk _).2, p1 (hk _).1 (hk _).2, p2 (hk _).1 (hk _).2,
      p3 (hk _).1 (hk _).2, p4 (hk _).1 (hk _).2, p5 (hk _).1 (hk _).2, p6 (hk _).1 (hk _).2,
      p7 (hk _).1 (hk _).2⟩

theorem inBounds_data (m : Node) (pt : Vec3) :
    m.inBounds pt = (Node.leaf m.data).inBounds pt := by
  cases m <;> rfl

theorem ownedInBounds_nodes (ps : Store) :
    ∀ t : Node, t.ownedInBounds ps →
      ∀ m ∈ t.nodes, ∀ i ∈ m.particles, m.inBounds (ps.at i).pos = true := by
  intro t
  induction t with
  | leaf d =>
    intro h m hm
    simp only [Node.nodes, List.mem_singleton] at hm
    subst hm
    exact h
  | branch d c0 c1 c2 c3 c4 c5 c6 c7 ih0 ih1 ih2 ih3 ih4 ih5 ih6 ih7 =>
    intro h m hm
    obtain ⟨hd, w0, w1, w2, w3, w4, w5, w6, w7⟩ := h
    rcases (mem_nodes_branch m d c0 c1 c2 c3 c4 c5 c6 c7).mp hm with
      e | e | e | e | e | e | e | e | e
    · subst e
      intro i hi
      rw [inBounds_data]
      exact hd i hi
    · exact ih0 w0 m e
    · exact ih1 w1 m e
    · exact ih2 w2 m e
    · exact ih3 w3 m e
    · exact ih4 w4 m e
    · exact ih5 w5 m e
    · exact ih6 w6 m e
    · exact ih7 w7 m e

theorem frameRoot_inBounds (ps : Store) :
    ∀ i ∈ (frameRoot ps).particles, (frameRoot ps).inBounds (ps.at i).pos = true := by
  intro i hi
  rw [frameRoot_particles, List.mem_range] at hi
  obtain ⟨bx, bY, bz⟩ := getMaxSide_bound ps (ps.at i) (at_mem ps i hi)
  have x1 := abs_le.mp bx
  have y1 := abs_le.mp bY
  have z1 := abs_le.mp bz
  simp only [Node.inBounds, frameRoot, Node.center, Node.side, Node.data, Vec3.zero,
    Bool.and_eq_true, decide_eq_true_eq, zero_sub, zero_add]
  exact ⟨⟨⟨x1.1, x1.2⟩, y1.1, y1.2⟩, z1.1, z1.2⟩

/-- C18: in the tree returned by the build of a frame, every particle owned by a
node passes that node's inclusive `inBounds` test; for the root this holds because
every coordinate of every particle is at most `getMaxSide / 2` in absolute value
and the root is centred at the origin. -/
theorem C18_owned_particles_in_bounds (fuel : Nat) (ps : Store) (t : Node)
    (ht : frameTree fuel ps = .ok t) :
    (∀ m ∈ t.nodes, ∀ i ∈ m.particles, m.inBounds (ps.at i).pos = true)
      ∧ t.center = Vec3.zero ∧ t.side = getMaxSide ps
      ∧ (∀ q ∈ ps, |q.pos.x| ≤ getMaxSide ps / 2 ∧ |q.pos.y| ≤ getMaxSide ps / 2
          ∧ |q.pos.z| ≤ getMaxSide ps / 2) := by
  have hps : ps ≠ [] := by
    intro h
    subst h
    rw [frameTree_nil] at ht
    cases ht
  rw [frameTree_eq fuel ps hps] at ht
  have hd := buildTree_data ps fuel _ t ht
  refine ⟨ownedInBounds_nodes ps t
    (buildTree_ownedInBounds ps fuel _ t ht ⟨_, rfl⟩ (frameRoot_inBounds ps)), ?_, ?_,
    fun q hq => getMaxSide_bound ps q hq⟩
  · simp only [Node.center, hd]; rfl
  · simp only [Node.side, hd]; rfl

/-- C18 (witness): the tree of the two-body scenario. -/
theorem C18_owned_particles_in_bounds_witness :
    frameTree 1 twoBody = .ok (builtTree 1 twoBody)
      ∧ ((∀ m ∈ (builtTree 1 twoBody).nodes, ∀ i ∈ m.particles,
            m.inBounds (twoBody.at i).pos = true)
        ∧ (builtTree 1 twoBody).center = Vec3.zero
        ∧ (builtTree 1 twoBody).side = getMaxSide twoBody
        ∧ (∀ q ∈ twoBody, |q.pos.x| ≤ getMaxSide twoBody / 2
            ∧ |q.pos.y| ≤ getMaxSide twoBody / 2 ∧ |q.pos.z| ≤ getMaxSide twoBody / 2)) :=
  ⟨by decide!, C18_owned_particles_in_bounds 1 twoBody (builtTree 1 twoBody) (by decide!)⟩

/-! ### C19: the statement for every node -/

theorem sidesNonneg_nodes :
    ∀ t : Node, t.sidesNonneg → ∀ m ∈ t.nodes, 0 ≤ m.side := by
  intro t
  induction t with
  | leaf d =>
    intro h m hm
    simp only [Node.nodes, List.mem_singleton] at hm
    subst hm
    exact h
  | branch d c0 c1 c2 c3 c4 c5 c6 c7 ih0 ih1 ih2 ih3 ih4 ih5 ih6 ih7 =>
    intro h m hm
    obtain ⟨hd, w0, w1, w2, w3, w4, w5, w6, w7⟩ := h
    rcases (mem_nodes_branch m d c0 c1 c2 c3 c4 c5 c6 c7).mp hm with
      e | e | e | e | e | e | e | e | e
    · subst e
      exact hd
    · exact ih0 w0 m e
    · exact ih1 w1 m e
    · exact ih2 w2 m e
    · exact ih3 w3 m e
    · exact ih4 w4 m e
    · exact ih5 w5 m e
    · exact ih6 w6 m e
    · exact ih7 w7 m e

/-- C19: for every tree whose nodes all have a non-negative side, every particle
`p` and every `Theta ≤ 0` (the norm being non-negative), the test `theta < Theta` is
false at every node, so `sumExternalForces` never takes the point-mass branch: its
record holds no division against an accepted node, the store it returns is the
old one with exactly the leaf-level contributions of all leaves added to `p`,
and it performs one leaf-level evaluation for each of them. -/
theorem C19_nonpositive_theta_uses_leaves_only (sqrt : ℚ → ℚ) (hsq : ∀ x, 0 ≤ sqrt x)
    (p : Nat) (epsilon G Theta : ℚ) (hT : Theta ≤ 0) (t : Node) (hs : t.sidesNonneg)
    (ps : Store) :
    (∀ m ∈ t.nodes,
        thetaLess m.side (Vec3.norm sqrt (Vec3.sub (ps.at p).pos m.com)) Theta = false)
      ∧ (∀ e ∈ divisions sqrt p epsilon G Theta t ps, e.isNodeForce = false)
      ∧ sumExternalForces sqrt p epsilon G Theta t ps
          = ps.addForces p (leafContribs sqrt epsilon G ps p t)
      ∧ leafForceCount (divisions sqrt p epsilon G Theta t ps)
          = (leafContribs sqrt epsilon G ps p t).length := by
  rw [divisions_eq]
  exact ⟨fun m hm => thetaLess_false _ _ _ (sidesNonneg_nodes t hs m hm) (hsq _) hT,
    eventsOf_no_nodeForce sqrt hsq p epsilon Theta hT ps t hs,
    sumExternalForces_leafContribs sqrt hsq p epsilon G Theta hT t ps hs,
    leafForceCount_eventsOf sqrt hsq p epsilon G Theta hT ps t hs⟩

/-- C19 (witness): the two-body tree with `Theta = 0`. -/
theorem C19_nonpositive_theta_uses_leaves_only_witness :
    (∀ x, 0 ≤ qsqrt x) ∧ (0 : ℚ) ≤ 0 ∧ (builtTree 1 twoBody).sidesNonneg
      ∧ ((∀ m ∈ (builtTree 1 twoBody).nodes,
            thetaLess m.side (Vec3.norm qsqrt (Vec3.sub (twoBody.at 0).pos m.com)) 0 = false)
        ∧ (∀ e ∈ divisions qsqrt 0 0 1 0 (builtTree 1 twoBody) twoBody, e.isNodeForce = false)
        ∧ sumExternalForces qsqrt 0 0 1 0 (builtTree 1 twoBody) twoBody
            = twoBody.addForces 0 (leafContribs qsqrt 0 1 twoBody 0 (builtTree 1 twoBody))
        ∧ leafForceCount (divisions qsqrt 0 0 1 0 (builtTree 1 twoBody) twoBody)
            = (leafContribs qsqrt 0 1 twoBody 0 (builtTree 1 twoBody)).length) :=
  ⟨qsqrt_nonneg, le_refl 0, frameTree_sidesNonneg 1 twoBody _ twoBody_tree.1,
    C19_nonpositive_theta_uses_leaves_only qsqrt qsqrt_nonneg 0 0 1 0 (le_refl 0)
      (builtTree 1 twoBody) (frameTree_sidesNonneg 1 twoBody _ twoBody_tree.1) twoBody⟩

end BHCPP
